import Mathlib

/-!
Verification of the SECS-II-style message substrate of `semi-rs` (`semi_e5`).

The repository's visible sources (`src/semi_e5/src/messages/s5.rs`,
`src/semi_e5/src/messages/s6.rs`) are the declarative message catalogs for
streams 5 and 6.  The underlying core — the `Item` tree, the binary codec, the
shape binder, the message envelope and the block segmenter — is declared by the
project's specification and consumed by the catalogs; those core components are
modelled here from the specification text, while the catalogs themselves are
embedded directly from the Rust source.
-/

namespace SemiE5

/-- Modelled from the spec: the error taxonomy of §7 (`crate::Error` is not in
the visible sources).  One constructor per classified failure. -/
inductive Error where
  | SizeExceeded
  | MalformedItem
  | ShapeMismatch
  | WrongMessageType
  | ReplyBitMismatch
  | SegmentationNotPermitted
  | IncompleteMessage
  | OrdinalGap
deriving DecidableEq

/-- Modelled from the spec: the `Item` data model of §3 (`crate::Item` is not in
the visible sources).  A tagged union over a heterogeneous list of children,
raw bytes, booleans, text, fixed-width signed/unsigned integers of widths
1/2/4/8 bytes and fixed-width floats of 4/8 bytes.  Bytes are modelled as
`Nat` (well-formedness bounds them below 256); signed integers as `Int`;
floats by the `Nat` holding their raw bit pattern, since the codec only ever
moves their big-endian bytes. -/
inductive Item where
  | list    (items : List Item)
  | binary  (bytes : List Nat)
  | boolean (bools : List Bool)
  | ascii   (chars : List Nat)
  | i1 (xs : List Int)
  | i2 (xs : List Int)
  | i4 (xs : List Int)
  | i8 (xs : List Int)
  | u1 (xs : List Nat)
  | u2 (xs : List Nat)
  | u4 (xs : List Nat)
  | u8 (xs : List Nat)
  | f4 (xs : List Nat)
  | f8 (xs : List Nat)

/-! ### Big-endian byte-level helpers -/

/-- `w` big-endian bytes of `x % 256 ^ w`. -/
def natToBytes : Nat → Nat → List Nat
  | 0, _ => []
  | w + 1, x => (x / 256 ^ w) % 256 :: natToBytes w x

/-- Big-endian interpretation of a byte list. -/
def bytesToNat (bs : List Nat) : Nat :=
  bs.foldl (fun acc b => acc * 256 + b) 0

/-- Two's-complement big-endian bytes of a signed value. -/
def intToBytes (w : Nat) (x : Int) : List Nat :=
  natToBytes w (x % ((256 : Int) ^ w)).toNat

/-- Two's-complement big-endian interpretation of `w` bytes. -/
def bytesToInt (w : Nat) (bs : List Nat) : Int :=
  let n := bytesToNat bs
  if 2 * n < 256 ^ w then (n : Int) else (n : Int) - (256 : Int) ^ w

@[simp] theorem natToBytes_length (w x : Nat) : (natToBytes w x).length = w := by
  induction w generalizing x with
  | zero => rfl
  | succ w ih => simp [natToBytes, ih]

@[simp] theorem intToBytes_length (w : Nat) (x : Int) : (intToBytes w x).length = w := by
  simp [intToBytes]

theorem foldl_natToBytes (w x a : Nat) :
    (natToBytes w x).foldl (fun acc b => acc * 256 + b) a = a * 256 ^ w + x % 256 ^ w := by
  induction w generalizing a with
  | zero => simp [natToBytes, Nat.mod_one]
  | succ w ih =>
    have hmul : x % (256 ^ w * 256) = x % 256 ^ w + 256 ^ w * (x / 256 ^ w % 256) :=
      Nat.mod_mul
    simp only [natToBytes, List.foldl_cons, ih]
    rw [pow_succ, hmul]
    ring

theorem bytesToNat_natToBytes {w x : Nat} (h : x < 256 ^ w) :
    bytesToNat (natToBytes w x) = x := by
  simpa [bytesToNat, Nat.mod_eq_of_lt h] using foldl_natToBytes w x 0

theorem bytesToInt_intToBytes {w : Nat} {x : Int}
    (hlo : -((256 : Int) ^ w) ≤ 2 * x) (hhi : 2 * x < (256 : Int) ^ w) :
    bytesToInt w (intToBytes w x) = x := by
  have hposH : (0 : Int) < (256 : Int) ^ w := by positivity
  by_cases hx : 0 ≤ x
  · have hxlt : x < (256 : Int) ^ w := by omega
    have hmod : x % ((256 : Int) ^ w) = x := Int.emod_eq_of_lt hx hxlt
    have hcast : ((x.toNat : Int)) = x := Int.toNat_of_nonneg hx
    have hnat : x.toNat < 256 ^ w := by
      have : ((x.toNat : Int)) < ((256 ^ w : Nat) : Int) := by push_cast; omega
      exact_mod_cast this
    have hsmall : 2 * x.toNat < 256 ^ w := by
      have : (2 * (x.toNat : Int)) < ((256 ^ w : Nat) : Int) := by push_cast; omega
      exact_mod_cast this
    simp only [intToBytes, hmod, bytesToInt, bytesToNat_natToBytes hnat]
    simp [hsmall, hcast]
  · push_neg at hx
    have hge : -((256 : Int) ^ w) ≤ x := by omega
    have h0 : (0 : Int) ≤ x + (256 : Int) ^ w := by omega
    have h1 : x + (256 : Int) ^ w < (256 : Int) ^ w := by omega
    have hmod : x % ((256 : Int) ^ w) = x + (256 : Int) ^ w := by
      have h2 : (x + (256 : Int) ^ w) % ((256 : Int) ^ w) = x % ((256 : Int) ^ w) := by
        have h3 := Int.add_mul_emod_self_left x ((256 : Int) ^ w) 1
        rw [mul_one] at h3
        exact h3
      rw [← h2, Int.emod_eq_of_lt h0 h1]
    have hnat : (x + (256 : Int) ^ w).toNat < 256 ^ w := by
      have : ((x + (256 : Int) ^ w).toNat : Int) < ((256 ^ w : Nat) : Int) := by
        rw [Int.toNat_of_nonneg h0]; push_cast; omega
      exact_mod_cast this
    have hbig : ¬ 2 * (x + (256 : Int) ^ w).toNat < 256 ^ w := by
      have hcast : ((x + (256 : Int) ^ w).toNat : Int) = x + (256 : Int) ^ w :=
        Int.toNat_of_nonneg h0
      intro hlt
      have : (2 * ((x + (256 : Int) ^ w).toNat : Int)) < ((256 ^ w : Nat) : Int) := by
        exact_mod_cast hlt
      rw [hcast] at this
      push_cast at this
      omega
    simp only [intToBytes, hmod, bytesToInt, bytesToNat_natToBytes hnat]
    simp only [hbig, if_false]
    have hcast : ((x + (256 : Int) ^ w).toNat : Int) = x + (256 : Int) ^ w :=
      Int.toNat_of_nonneg h0
    rw [hcast]
    ring

theorem natToBytes_mem_lt {w x : Nat} : ∀ b ∈ natToBytes w x, b < 256 := by
  induction w generalizing x with
  | zero => simp [natToBytes]
  | succ w ih =>
    intro b hb
    simp only [natToBytes, List.mem_cons] at hb
    rcases hb with h | h
    · subst h; exact Nat.mod_lt _ (by norm_num)
    · exact ih b h

/-! ### Encoder (spec §4.1, §6) -/

/-- The 24-bit length limit: every length field is at most `2 ^ 24 - 1`. -/
def lenLimit : Nat := 16777216

/-- Number of big-endian length bytes (1–3) used for a length field; the
encoder always uses the minimal count, which keeps encoding deterministic. -/
def numLenBytes (n : Nat) : Nat :=
  if n < 256 then 1 else if n < 65536 then 2 else 3

/-- Wire header of one item: format byte (high 6 bits the kind code, low
2 bits the count of length bytes) followed by the big-endian length field. -/
def fmtHeader (code n : Nat) : List Nat :=
  (code * 4 + numLenBytes n) :: natToBytes (numLenBytes n) n

/-- Concatenation of the encodings of the elements of a list. -/
def catMap {α : Type} (f : α → List Nat) : List α → List Nat
  | [] => []
  | x :: xs => f x ++ catMap f xs

mutual

/-- Modelled from the spec: the raw (checks-free) encoder for one `Item` —
kind code and length header, then the raw big-endian payload (recursively
encoded children for a List).  Kind codes are the SECS-II codes (octal 00
List, 10 Binary, 11 Boolean, 20 Ascii, 30/31/32/34 signed ints, 40/44 floats,
50/51/52/54 unsigned ints). -/
def encodeB : Item → List Nat
  | .list items  => fmtHeader 0 items.length ++ encodeBs items
  | .binary bs   => fmtHeader 8 bs.length ++ bs
  | .boolean bs  => fmtHeader 9 bs.length ++ bs.map (fun b => if b then 1 else 0)
  | .ascii cs    => fmtHeader 16 cs.length ++ cs
  | .i1 xs       => fmtHeader 25 (1 * xs.length) ++ catMap (intToBytes 1) xs
  | .i2 xs       => fmtHeader 26 (2 * xs.length) ++ catMap (intToBytes 2) xs
  | .i4 xs       => fmtHeader 28 (4 * xs.length) ++ catMap (intToBytes 4) xs
  | .i8 xs       => fmtHeader 24 (8 * xs.length) ++ catMap (intToBytes 8) xs
  | .u1 xs       => fmtHeader 41 (1 * xs.length) ++ catMap (natToBytes 1) xs
  | .u2 xs       => fmtHeader 42 (2 * xs.length) ++ catMap (natToBytes 2) xs
  | .u4 xs       => fmtHeader 44 (4 * xs.length) ++ catMap (natToBytes 4) xs
  | .u8 xs       => fmtHeader 40 (8 * xs.length) ++ catMap (natToBytes 8) xs
  | .f4 xs       => fmtHeader 36 (4 * xs.length) ++ catMap (natToBytes 4) xs
  | .f8 xs       => fmtHeader 32 (8 * xs.length) ++ catMap (natToBytes 8) xs

def encodeBs : List Item → List Nat
  | [] => []
  | i :: is => encodeB i ++ encodeBs is

end

mutual

/-- Modelled from the spec: the 24-bit size invariant — every List length and
every scalar array's byte count fits the (at most 3-byte) length field. -/
def sizeOkB : Item → Bool
  | .list items  => items.length < lenLimit && sizeOkBs items
  | .binary bs   => bs.length < lenLimit
  | .boolean bs  => bs.length < lenLimit
  | .ascii cs    => cs.length < lenLimit
  | .i1 xs       => 1 * xs.length < lenLimit
  | .i2 xs       => 2 * xs.length < lenLimit
  | .i4 xs       => 4 * xs.length < lenLimit
  | .i8 xs       => 8 * xs.length < lenLimit
  | .u1 xs       => 1 * xs.length < lenLimit
  | .u2 xs       => 2 * xs.length < lenLimit
  | .u4 xs       => 4 * xs.length < lenLimit
  | .u8 xs       => 8 * xs.length < lenLimit
  | .f4 xs       => 4 * xs.length < lenLimit
  | .f8 xs       => 8 * xs.length < lenLimit

def sizeOkBs : List Item → Bool
  | [] => true
  | i :: is => sizeOkB i && sizeOkBs is

end

mutual

/-- Modelled from the spec: well-formedness of an `Item` — every element value
fits its declared byte width (bytes below 256, signed values in the
two's-complement range of the width, float bit patterns within the width). -/
def wfB : Item → Bool
  | .list items  => wfBs items
  | .binary bs   => bs.all (fun b => b < 256)
  | .boolean _   => true
  | .ascii cs    => cs.all (fun c => c < 256)
  | .i1 xs       => xs.all (fun x => decide (-((256 : Int) ^ 1) ≤ 2 * x ∧ 2 * x < (256 : Int) ^ 1))
  | .i2 xs       => xs.all (fun x => decide (-((256 : Int) ^ 2) ≤ 2 * x ∧ 2 * x < (256 : Int) ^ 2))
  | .i4 xs       => xs.all (fun x => decide (-((256 : Int) ^ 4) ≤ 2 * x ∧ 2 * x < (256 : Int) ^ 4))
  | .i8 xs       => xs.all (fun x => decide (-((256 : Int) ^ 8) ≤ 2 * x ∧ 2 * x < (256 : Int) ^ 8))
  | .u1 xs       => xs.all (fun x => x < 256 ^ 1)
  | .u2 xs       => xs.all (fun x => x < 256 ^ 2)
  | .u4 xs       => xs.all (fun x => x < 256 ^ 4)
  | .u8 xs       => xs.all (fun x => x < 256 ^ 8)
  | .f4 xs       => xs.all (fun x => x < 256 ^ 4)
  | .f8 xs       => xs.all (fun x => x < 256 ^ 8)

def wfBs : List Item → Bool
  | [] => true
  | i :: is => wfB i && wfBs is

end

/-- Modelled from the spec: `Encode(Item) → bytes` — infallible given a
well-formed item, and fails with `SizeExceeded` if any List or array exceeds
the 24-bit length limit (spec §4.1). -/
def encode (i : Item) : Except Error (List Nat) :=
  if sizeOkB i then .ok (encodeB i) else .error .SizeExceeded

/-! ### Decoder (spec §4.1, §6) -/

/-- Parse `n` fixed-width scalars of `w` bytes each from the front of a
buffer, converting each chunk with `conv`; returns the values and the
remaining buffer.  Callers check the available length first. -/
def parseSc {α : Type} (conv : List Nat → α) (w : Nat) : Nat → List Nat → List α × List Nat
  | 0, bs => ([], bs)
  | n + 1, bs =>
    let p := parseSc conv w n (bs.drop w)
    (conv (bs.take w) :: p.1, p.2)

/-- Decode the payload of one scalar-array item: the declared byte count must
be a multiple of the element width and fit in the remaining buffer, otherwise
the item is malformed. -/
def decSc {α : Type} (mk : List α → Item) (conv : List Nat → α) (w len : Nat)
    (r1 : List Nat) : Except Error (Item × List Nat) :=
  if len % w = 0 ∧ ¬ r1.length < len then
    .ok (mk (parseSc conv w (len / w) r1).1, (parseSc conv w (len / w) r1).2)
  else .error .MalformedItem

mutual

/-- Modelled from the spec: decode one item from the front of a buffer, with
`fuel` bounding the recursion (it strictly decreases at every nested call, so
`buffer length + 1` always suffices); returns the item and the unconsumed
suffix.  Fails with `MalformedItem` on an empty buffer, a format byte with no
length bytes, a truncated length field, an unknown kind code, a payload
shorter than the declared length, or a List whose declared child count cannot
be decoded before buffer exhaustion (spec §4.1). -/
def decodeF : Nat → List Nat → Except Error (Item × List Nat)
  | 0, _ => .error .MalformedItem
  | _ + 1, [] => .error .MalformedItem
  | fuel + 1, fb :: r0 =>
    if fb % 4 = 0 then .error .MalformedItem
    else if r0.length < fb % 4 then .error .MalformedItem
    else
      let code := fb / 4
      let len := bytesToNat (r0.take (fb % 4))
      let r1 := r0.drop (fb % 4)
      if code = 0 then
        match decodeItems fuel len r1 with
        | .ok p => .ok (.list p.1, p.2)
        | .error e => .error e
      else if code = 8 then
        if r1.length < len then .error .MalformedItem
        else .ok (.binary (r1.take len), r1.drop len)
      else if code = 9 then
        if r1.length < len then .error .MalformedItem
        else .ok (.boolean ((r1.take len).map (fun b => b != 0)), r1.drop len)
      else if code = 16 then
        if r1.length < len then .error .MalformedItem
        else .ok (.ascii (r1.take len), r1.drop len)
      else if code = 25 then decSc .i1 (bytesToInt 1) 1 len r1
      else if code = 26 then decSc .i2 (bytesToInt 2) 2 len r1
      else if code = 28 then decSc .i4 (bytesToInt 4) 4 len r1
      else if code = 24 then decSc .i8 (bytesToInt 8) 8 len r1
      else if code = 36 then decSc .f4 bytesToNat 4 len r1
      else if code = 32 then decSc .f8 bytesToNat 8 len r1
      else if code = 41 then decSc .u1 bytesToNat 1 len r1
      else if code = 42 then decSc .u2 bytesToNat 2 len r1
      else if code = 44 then decSc .u4 bytesToNat 4 len r1
      else if code = 40 then decSc .u8 bytesToNat 8 len r1
      else .error .MalformedItem

/-- Decode exactly `n` consecutive children of a List. -/
def decodeItems : Nat → Nat → List Nat → Except Error (List Item × List Nat)
  | _, 0, bs => .ok ([], bs)
  | 0, _ + 1, _ => .error .MalformedItem
  | fuel + 1, n + 1, bs =>
    match decodeF fuel bs with
    | .ok p =>
      match decodeItems fuel n p.2 with
      | .ok q => .ok (p.1 :: q.1, q.2)
      | .error e => .error e
    | .error e => .error e

end

/-- The kind-code dispatch performed by `decodeF` once the header is read:
`len` is the declared element count (List) or byte count (scalar kinds), `r1`
the buffer after the length field.  Factored out for the proofs below;
definitionally equal to the corresponding branch of `decodeF`. -/
def decodeBody (fuel code len : Nat) (r1 : List Nat) : Except Error (Item × List Nat) :=
  if code = 0 then
    match decodeItems fuel len r1 with
    | .ok p => .ok (.list p.1, p.2)
    | .error e => .error e
  else if code = 8 then
    if r1.length < len then .error .MalformedItem
    else .ok (.binary (r1.take len), r1.drop len)
  else if code = 9 then
    if r1.length < len then .error .MalformedItem
    else .ok (.boolean ((r1.take len).map (fun b => b != 0)), r1.drop len)
  else if code = 16 then
    if r1.length < len then .error .MalformedItem
    else .ok (.ascii (r1.take len), r1.drop len)
  else if code = 25 then decSc .i1 (bytesToInt 1) 1 len r1
  else if code = 26 then decSc .i2 (bytesToInt 2) 2 len r1
  else if code = 28 then decSc .i4 (bytesToInt 4) 4 len r1
  else if code = 24 then decSc .i8 (bytesToInt 8) 8 len r1
  else if code = 36 then decSc .f4 bytesToNat 4 len r1
  else if code = 32 then decSc .f8 bytesToNat 8 len r1
  else if code = 41 then decSc .u1 bytesToNat 1 len r1
  else if code = 42 then decSc .u2 bytesToNat 2 len r1
  else if code = 44 then decSc .u4 bytesToNat 4 len r1
  else if code = 40 then decSc .u8 bytesToNat 8 len r1
  else .error .MalformedItem

/-- `decodeF` on a non-empty buffer that passes the header checks is exactly
the kind dispatch `decodeBody`. -/
theorem decodeF_cons (fuel fb : Nat) (r0 : List Nat)
    (h0 : ¬ fb % 4 = 0) (h1 : ¬ r0.length < fb % 4) :
    decodeF (fuel + 1) (fb :: r0) =
      decodeBody fuel (fb / 4) (bytesToNat (r0.take (fb % 4))) (r0.drop (fb % 4)) := by
  simp only [decodeF, h0, h1, if_false]
  rfl

/-- Raw unfolding of `decodeF` on a non-empty buffer. -/
theorem decodeF_cons_eq (fuel fb : Nat) (r0 : List Nat) :
    decodeF (fuel + 1) (fb :: r0) =
      if fb % 4 = 0 then .error .MalformedItem
      else if r0.length < fb % 4 then .error .MalformedItem
      else decodeBody fuel (fb / 4) (bytesToNat (r0.take (fb % 4))) (r0.drop (fb % 4)) :=
  rfl

/-- Unfolding of the kind dispatch at the List kind code. -/
theorem decodeBody_zero (fuel len : Nat) (r1 : List Nat) :
    decodeBody fuel 0 len r1 =
      match decodeItems fuel len r1 with
      | .ok p => .ok (.list p.1, p.2)
      | .error e => .error e := rfl

/-- Modelled from the spec: `Decode(bytes) → Item`, consuming exactly the
bytes of one item and reporting how many bytes were consumed (spec §4.1).
The fuel `bs.length + 1` always suffices, since every nesting level consumes
at least one byte of the buffer. -/
def decode (bs : List Nat) : Except Error (Item × Nat) :=
  match decodeF (bs.length + 1) bs with
  | .ok p => .ok (p.1, bs.length - p.2.length)
  | .error e => .error e

/-! ### Round-trip lemmas: decoding an encoding -/

theorem numLenBytes_pos (n : Nat) : 0 < numLenBytes n := by
  simp only [numLenBytes]
  split
  · norm_num
  · split <;> norm_num

theorem numLenBytes_lt4 (n : Nat) : numLenBytes n < 4 := by
  simp only [numLenBytes]
  split
  · norm_num
  · split <;> norm_num

theorem lt_pow_numLenBytes {n : Nat} (h : n < lenLimit) : n < 256 ^ numLenBytes n := by
  by_cases h1 : n < 256
  · simp only [numLenBytes, h1, if_true]
    simpa using h1
  · by_cases h2 : n < 65536
    · simp only [numLenBytes, h1, if_false, h2, if_true]
      norm_num
      omega
    · simp only [numLenBytes, h1, if_false, h2]
      simp only [lenLimit] at h
      norm_num
      omega

theorem fmtByte_mod (code n : Nat) : (code * 4 + numLenBytes n) % 4 = numLenBytes n := by
  have h1 := numLenBytes_lt4 n
  omega

theorem fmtByte_div (code n : Nat) : (code * 4 + numLenBytes n) / 4 = code := by
  have h1 := numLenBytes_lt4 n
  omega

/-- Reading back a header written by `fmtHeader` lands in `decodeBody` with the
same kind code and length. -/
theorem decodeF_fmtHeader (fuel code len : Nat) (r1 : List Nat) (h : len < lenLimit) :
    decodeF (fuel + 1) (fmtHeader code len ++ r1) = decodeBody fuel code len r1 := by
  have hpos := numLenBytes_pos len
  have hlt := lt_pow_numLenBytes h
  have hm := fmtByte_mod code len
  have hd := fmtByte_div code len
  have h0 : ¬ (code * 4 + numLenBytes len) % 4 = 0 := by omega
  have h1 : ¬ (natToBytes (numLenBytes len) len ++ r1).length <
      (code * 4 + numLenBytes len) % 4 := by
    simp only [List.length_append, natToBytes_length]
    omega
  simp only [fmtHeader, List.cons_append]
  rw [decodeF_cons _ _ _ h0 h1, hm, hd,
    List.take_left' (natToBytes_length _ _), List.drop_left' (natToBytes_length _ _),
    bytesToNat_natToBytes hlt]

@[simp] theorem catMap_nil {α : Type} (f : α → List Nat) : catMap f [] = [] := rfl

@[simp] theorem catMap_cons {α : Type} (f : α → List Nat) (x : α) (xs : List α) :
    catMap f (x :: xs) = f x ++ catMap f xs := rfl

theorem catMap_length {α : Type} (f : α → List Nat) (w : Nat)
    (hw : ∀ x, (f x).length = w) (xs : List α) :
    (catMap f xs).length = w * xs.length := by
  induction xs with
  | nil => simp
  | cons x xs ih => simp [ih, hw x, Nat.mul_succ]; ring

theorem parseSc_catMap {α : Type} (conv : List Nat → α) (enc : α → List Nat) (w : Nat)
    (hw : ∀ x, (enc x).length = w) (xs : List α) (rest : List Nat)
    (hconv : ∀ x ∈ xs, conv (enc x) = x) :
    parseSc conv w xs.length (catMap enc xs ++ rest) = (xs, rest) := by
  induction xs with
  | nil => simp [parseSc]
  | cons x xs ih =>
    simp only [catMap_cons, List.length_cons, parseSc, List.append_assoc]
    rw [List.take_left' (hw x), List.drop_left' (hw x)]
    rw [ih (fun y hy => hconv y (List.mem_cons_of_mem x hy))]
    rw [hconv x (List.mem_cons_self x xs)]

theorem decSc_catMap {α : Type} (mk : List α → Item) (conv : List Nat → α)
    (enc : α → List Nat) (w : Nat) (hw0 : 0 < w) (hw : ∀ x, (enc x).length = w)
    (xs : List α) (rest : List Nat) (hconv : ∀ x ∈ xs, conv (enc x) = x) :
    decSc mk conv w (w * xs.length) (catMap enc xs ++ rest) = .ok (mk xs, rest) := by
  have hmod : (w * xs.length) % w = 0 := Nat.mul_mod_right w xs.length
  have hdiv : (w * xs.length) / w = xs.length := Nat.mul_div_cancel_left _ hw0
  have hclen : (catMap enc xs).length = w * xs.length := catMap_length enc w hw xs
  have hnl : ¬ ((catMap enc xs ++ rest).length < w * xs.length) := by
    simp only [List.length_append, hclen]
    omega
  simp only [decSc, hmod, hdiv, hnl, not_false_iff, and_true, if_pos, true_and]
  rw [parseSc_catMap conv enc w hw xs rest hconv]

mutual

/-- Fuel needed by `decodeF` to decode the encoding of an item. -/
def cost : Item → Nat
  | .list items => 1 + costL items
  | _ => 1

/-- Fuel needed by `decodeItems` to decode the encodings of a child list. -/
def costL : List Item → Nat
  | [] => 0
  | i :: is => 1 + max (cost i) (costL is)

end

theorem one_le_cost (i : Item) : 1 ≤ cost i := by
  cases i <;> simp [cost]

@[simp] theorem fmtHeader_length (code n : Nat) :
    (fmtHeader code n).length = 1 + numLenBytes n := by
  simp [fmtHeader]
  omega

theorem cost_le_encodeB_length :
    ∀ n, (∀ i : Item, sizeOf i ≤ n → cost i ≤ (encodeB i).length) ∧
      (∀ items : List Item, sizeOf items ≤ n → costL items ≤ (encodeBs items).length + 1) := by
  intro n
  induction n using Nat.strong_induction_on with
  | _ n ih =>
    constructor
    · intro i hsz
      cases i with
      | list items =>
        have hlt : sizeOf items < n := by
          have hspec : sizeOf (Item.list items) = 1 + sizeOf items := by simp
          omega
        have h2 := (ih (sizeOf items) hlt).2 items (le_refl _)
        have hp := numLenBytes_pos items.length
        simp only [cost, encodeB, List.length_append, fmtHeader_length]
        omega
      | binary bs =>
        have hp := numLenBytes_pos bs.length
        simp only [cost, encodeB, List.length_append, fmtHeader_length]
        omega
      | boolean bs =>
        have hp := numLenBytes_pos bs.length
        simp only [cost, encodeB, List.length_append, fmtHeader_length]
        omega
      | ascii cs =>
        have hp := numLenBytes_pos cs.length
        simp only [cost, encodeB, List.length_append, fmtHeader_length]
        omega
      | i1 xs =>
        have hp := numLenBytes_pos (1 * xs.length)
        simp only [cost, encodeB, List.length_append, fmtHeader_length]
        omega
      | i2 xs =>
        have hp := numLenBytes_pos (2 * xs.length)
        simp only [cost, encodeB, List.length_append, fmtHeader_length]
        omega
      | i4 xs =>
        have hp := numLenBytes_pos (4 * xs.length)
        simp only [cost, encodeB, List.length_append, fmtHeader_length]
        omega
      | i8 xs =>
        have hp := numLenBytes_pos (8 * xs.length)
        simp only [cost, encodeB, List.length_append, fmtHeader_length]
        omega
      | u1 xs =>
        have hp := numLenBytes_pos (1 * xs.length)
        simp only [cost, encodeB, List.length_append, fmtHeader_length]
        omega
      | u2 xs =>
        have hp := numLenBytes_pos (2 * xs.length)
        simp only [cost, encodeB, List.length_append, fmtHeader_length]
        omega
      | u4 xs =>
        have hp := numLenBytes_pos (4 * xs.length)
        simp only [cost, encodeB, List.length_append, fmtHeader_length]
        omega
      | u8 xs =>
        have hp := numLenBytes_pos (8 * xs.length)
        simp only [cost, encodeB, List.length_append, fmtHeader_length]
        omega
      | f4 xs =>
        have hp := numLenBytes_pos (4 * xs.length)
        simp only [cost, encodeB, List.length_append, fmtHeader_length]
        omega
      | f8 xs =>
        have hp := numLenBytes_pos (8 * xs.length)
        simp only [cost, encodeB, List.length_append, fmtHeader_length]
        omega
    · intro items hsz
      cases items with
      | nil => simp [costL]
      | cons i is =>
        have hi : sizeOf i < n := by
          have hspec : sizeOf (i :: is) = 1 + sizeOf i + sizeOf is := by simp
          have : 0 ≤ sizeOf is := Nat.zero_le _
          omega
        have his : sizeOf is < n := by
          have hspec : sizeOf (i :: is) = 1 + sizeOf i + sizeOf is := by simp
          have : 0 < sizeOf i := by
            cases i <;> simp
          omega
        have h1 := (ih (sizeOf i) hi).1 i (le_refl _)
        have h2 := (ih (sizeOf is) his).2 is (le_refl _)
        have h3 := one_le_cost i
        simp only [costL, encodeBs, List.length_append]
        omega

theorem cost_le (i : Item) : cost i ≤ (encodeB i).length :=
  (cost_le_encodeB_length (sizeOf i)).1 i (le_refl _)

/-- Unfolding equation for `decodeItems` on a positive child count. -/
theorem decodeItems_succ (fuel n : Nat) (bs : List Nat) :
    decodeItems (fuel + 1) (n + 1) bs =
      match decodeF fuel bs with
      | .ok p =>
        match decodeItems fuel n p.2 with
        | .ok q => .ok (p.1 :: q.1, q.2)
        | .error e => .error e
      | .error e => .error e := rfl

/-- Main round-trip induction: with enough fuel, decoding an encoding (with
any trailing bytes) returns the original item and the trailing bytes. -/
theorem decode_encode_aux :
    ∀ fuel, (∀ i rest, wfB i = true → sizeOkB i = true → cost i ≤ fuel →
        decodeF fuel (encodeB i ++ rest) = .ok (i, rest)) ∧
      (∀ items rest, wfBs items = true → sizeOkBs items = true → costL items ≤ fuel →
        decodeItems fuel items.length (encodeBs items ++ rest) = .ok (items, rest)) := by
  intro fuel
  induction fuel with
  | zero =>
    constructor
    · intro i rest _ _ hc
      have := one_le_cost i
      omega
    · intro items rest _ _ hc
      cases items with
      | nil => rfl
      | cons i is =>
        simp only [costL] at hc
        omega
  | succ fuel ih =>
    constructor
    · intro i rest hwf hsz hc
      cases i with
      | list items =>
        have hlt : items.length < lenLimit := by
          simp only [sizeOkB, Bool.and_eq_true, decide_eq_true_eq] at hsz
          exact hsz.1
        have hsz2 : sizeOkBs items = true := by
          simp only [sizeOkB, Bool.and_eq_true] at hsz
          exact hsz.2
        have hwf2 : wfBs items = true := hwf
        have hc2 : costL items ≤ fuel := by
          simp only [cost] at hc
          omega
        have h2 := ih.2 items rest hwf2 hsz2 hc2
        simp only [encodeB, List.append_assoc]
        rw [decodeF_fmtHeader _ _ _ _ hlt]
        simp [decodeBody, h2]
      | binary bs =>
        have hlt : bs.length < lenLimit := by simpa [sizeOkB] using hsz
        have hlen : ¬ ((bs ++ rest).length < bs.length) := by
          simp only [List.length_append]
          omega
        simp only [encodeB, List.append_assoc]
        rw [decodeF_fmtHeader _ _ _ _ hlt]
        simp [decodeBody, hlen, List.take_left, List.drop_left]
      | boolean bs =>
        have hlt : bs.length < lenLimit := by simpa [sizeOkB] using hsz
        have hlen : ¬ ((bs.map (fun b => if b then (1 : Nat) else 0) ++ rest).length
            < bs.length) := by
          simp only [List.length_append, List.length_map]
          omega
        have ht : (bs.map (fun b => if b then (1 : Nat) else 0) ++ rest).take bs.length
            = bs.map (fun b => if b then (1 : Nat) else 0) := List.take_left' (by simp)
        have hdr : (bs.map (fun b => if b then (1 : Nat) else 0) ++ rest).drop bs.length
            = rest := List.drop_left' (by simp)
        have hid : (bs.map (fun b => if b then (1 : Nat) else 0)).map (fun b => b != 0)
            = bs := by
          rw [List.map_map]
          have hfun : ((fun b => b != 0) ∘ (fun b : Bool => if b then (1 : Nat) else 0))
              = id := by
            funext b
            cases b <;> rfl
          rw [hfun, List.map_id]
        simp only [encodeB, List.append_assoc]
        rw [decodeF_fmtHeader _ _ _ _ hlt]
        simp [decodeBody, hlen, ht, hdr, hid]
      | ascii cs =>
        have hlt : cs.length < lenLimit := by simpa [sizeOkB] using hsz
        have hlen : ¬ ((cs ++ rest).length < cs.length) := by
          simp only [List.length_append]
          omega
        simp only [encodeB, List.append_assoc]
        rw [decodeF_fmtHeader _ _ _ _ hlt]
        simp [decodeBody, hlen, List.take_left, List.drop_left]
      | i1 xs =>
        have hlt : 1 * xs.length < lenLimit := by simpa [sizeOkB] using hsz
        have hconv : ∀ x ∈ xs, bytesToInt 1 (intToBytes 1 x) = x := by
          intro x hx
          simp only [wfB, List.all_eq_true, decide_eq_true_eq] at hwf
          exact bytesToInt_intToBytes (hwf x hx).1 (hwf x hx).2
        have h2 := decSc_catMap Item.i1 (bytesToInt 1) (intToBytes 1) 1 (by norm_num)
          (fun x => intToBytes_length 1 x) xs rest hconv
        simp only [one_mul] at h2
        simp only [encodeB, List.append_assoc]
        rw [decodeF_fmtHeader _ _ _ _ hlt]
        simp [decodeBody, h2]
      | i2 xs =>
        have hlt : 2 * xs.length < lenLimit := by simpa [sizeOkB] using hsz
        have hconv : ∀ x ∈ xs, bytesToInt 2 (intToBytes 2 x) = x := by
          intro x hx
          simp only [wfB, List.all_eq_true, decide_eq_true_eq] at hwf
          exact bytesToInt_intToBytes (hwf x hx).1 (hwf x hx).2
        have h2 := decSc_catMap Item.i2 (bytesToInt 2) (intToBytes 2) 2 (by norm_num)
          (fun x => intToBytes_length 2 x) xs rest hconv
        simp only [encodeB, List.append_assoc]
        rw [decodeF_fmtHeader _ _ _ _ hlt]
        simp [decodeBody, h2]
      | i4 xs =>
        have hlt : 4 * xs.length < lenLimit := by simpa [sizeOkB] using hsz
        have hconv : ∀ x ∈ xs, bytesToInt 4 (intToBytes 4 x) = x := by
          intro x hx
          simp only [wfB, List.all_eq_true, decide_eq_true_eq] at hwf
          exact bytesToInt_intToBytes (hwf x hx).1 (hwf x hx).2
        have h2 := decSc_catMap Item.i4 (bytesToInt 4) (intToBytes 4) 4 (by norm_num)
          (fun x => intToBytes_length 4 x) xs rest hconv
        simp only [encodeB, List.append_assoc]
        rw [decodeF_fmtHeader _ _ _ _ hlt]
        simp [decodeBody, h2]
      | i8 xs =>
        have hlt : 8 * xs.length < lenLimit := by simpa [sizeOkB] using hsz
        have hconv : ∀ x ∈ xs, bytesToInt 8 (intToBytes 8 x) = x := by
          intro x hx
          simp only [wfB, List.all_eq_true, decide_eq_true_eq] at hwf
          exact bytesToInt_intToBytes (hwf x hx).1 (hwf x hx).2
        have h2 := decSc_catMap Item.i8 (bytesToInt 8) (intToBytes 8) 8 (by norm_num)
          (fun x => intToBytes_length 8 x) xs rest hconv
        simp only [encodeB, List.append_assoc]
        rw [decodeF_fmtHeader _ _ _ _ hlt]
        simp [decodeBody, h2]
      | u1 xs =>
        have hlt : 1 * xs.length < lenLimit := by simpa [sizeOkB] using hsz
        have hconv : ∀ x ∈ xs, bytesToNat (natToBytes 1 x) = x := by
          intro x hx
          simp only [wfB, List.all_eq_true, decide_eq_true_eq] at hwf
          exact bytesToNat_natToBytes (hwf x hx)
        have h2 := decSc_catMap Item.u1 bytesToNat (natToBytes 1) 1 (by norm_num)
          (fun x => natToBytes_length 1 x) xs rest hconv
        simp only [one_mul] at h2
        simp only [encodeB, List.append_assoc]
        rw [decodeF_fmtHeader _ _ _ _ hlt]
        simp [decodeBody, h2]
      | u2 xs =>
        have hlt : 2 * xs.length < lenLimit := by simpa [sizeOkB] using hsz
        have hconv : ∀ x ∈ xs, bytesToNat (natToBytes 2 x) = x := by
          intro x hx
          simp only [wfB, List.all_eq_true, decide_eq_true_eq] at hwf
          exact bytesToNat_natToBytes (hwf x hx)
        have h2 := decSc_catMap Item.u2 bytesToNat (natToBytes 2) 2 (by norm_num)
          (fun x => natToBytes_length 2 x) xs rest hconv
        simp only [encodeB, List.append_assoc]
        rw [decodeF_fmtHeader _ _ _ _ hlt]
        simp [decodeBody, h2]
      | u4 xs =>
        have hlt : 4 * xs.length < lenLimit := by simpa [sizeOkB] using hsz
        have hconv : ∀ x ∈ xs, bytesToNat (natToBytes 4 x) = x := by
          intro x hx
          simp only [wfB, List.all_eq_true, decide_eq_true_eq] at hwf
          exact bytesToNat_natToBytes (hwf x hx)
        have h2 := decSc_catMap Item.u4 bytesToNat (natToBytes 4) 4 (by norm_num)
          (fun x => natToBytes_length 4 x) xs rest hconv
        simp only [encodeB, List.append_assoc]
        rw [decodeF_fmtHeader _ _ _ _ hlt]
        simp [decodeBody, h2]
      | u8 xs =>
        have hlt : 8 * xs.length < lenLimit := by simpa [sizeOkB] using hsz
        have hconv : ∀ x ∈ xs, bytesToNat (natToBytes 8 x) = x := by
          intro x hx
          simp only [wfB, List.all_eq_true, decide_eq_true_eq] at hwf
          exact bytesToNat_natToBytes (hwf x hx)
        have h2 := decSc_catMap Item.u8 bytesToNat (natToBytes 8) 8 (by norm_num)
          (fun x => natToBytes_length 8 x) xs rest hconv
        simp only [encodeB, List.append_assoc]
        rw [decodeF_fmtHeader _ _ _ _ hlt]
        simp [decodeBody, h2]
      | f4 xs =>
        have hlt : 4 * xs.length < lenLimit := by simpa [sizeOkB] using hsz
        have hconv : ∀ x ∈ xs, bytesToNat (natToBytes 4 x) = x := by
          intro x hx
          simp only [wfB, List.all_eq_true, decide_eq_true_eq] at hwf
          exact bytesToNat_natToBytes (hwf x hx)
        have h2 := decSc_catMap Item.f4 bytesToNat (natToBytes 4) 4 (by norm_num)
          (fun x => natToBytes_length 4 x) xs rest hconv
        simp only [encodeB, List.append_assoc]
        rw [decodeF_fmtHeader _ _ _ _ hlt]
        simp [decodeBody, h2]
      | f8 xs =>
        have hlt : 8 * xs.length < lenLimit := by simpa [sizeOkB] using hsz
        have hconv : ∀ x ∈ xs, bytesToNat (natToBytes 8 x) = x := by
          intro x hx
          simp only [wfB, List.all_eq_true, decide_eq_true_eq] at hwf
          exact bytesToNat_natToBytes (hwf x hx)
        have h2 := decSc_catMap Item.f8 bytesToNat (natToBytes 8) 8 (by norm_num)
          (fun x => natToBytes_length 8 x) xs rest hconv
        simp only [encodeB, List.append_assoc]
        rw [decodeF_fmtHeader _ _ _ _ hlt]
        simp [decodeBody, h2]
    · intro items rest hwf hsz hc
      cases items with
      | nil => rfl
      | cons i is =>
        simp only [wfBs, Bool.and_eq_true] at hwf
        simp only [sizeOkBs, Bool.and_eq_true] at hsz
        simp only [costL] at hc
        have h1 := ih.1 i (encodeBs is ++ rest) hwf.1 hsz.1 (by omega)
        have h2 := ih.2 is rest hwf.2 hsz.2 (by omega)
        simp only [encodeBs, List.append_assoc, List.length_cons]
        rw [decodeItems_succ, h1]
        show (match decodeItems fuel is.length (encodeBs is ++ rest) with
              | .ok q => Except.ok (i :: q.1, q.2)
              | .error e => .error e) = Except.ok (i :: is, rest)
        rw [h2]

/-- Claim C1: for every well-formed `Item` tree whose every List and array
length is within the 24-bit size limit, `Encode` succeeds and `Decode` on the
byte sequence it produced returns exactly the original item, consuming the
whole buffer — `Decode` is a left inverse of `Encode` on well-formed,
size-bounded items. -/
theorem decode_encode_roundtrip (i : Item)
    (hwf : wfB i = true) (hsz : sizeOkB i = true) :
    encode i = .ok (encodeB i) ∧
      decode (encodeB i) = .ok (i, (encodeB i).length) := by
  constructor
  · simp [encode, hsz]
  · have hc : cost i ≤ (encodeB i).length + 1 := by
      have := cost_le i
      omega
    have h1 := (decode_encode_aux ((encodeB i).length + 1)).1 i [] hwf hsz hc
    rw [List.append_nil] at h1
    simp [decode, h1]

/-- A sample item exercising every payload kind. -/
def sampleItem : Item :=
  .list [.u2 [1, 515], .ascii [79, 86], .i1 [-5, 127], .boolean [true, false],
         .binary [0, 255], .f4 [1065353216], .u8 [18446744073709551615],
         .i8 [-9223372036854775808], .list [.u1 [7], .i2 [-300], .f8 [42],
         .u4 [4294967295], .i4 [-2147483648], .list []]]

theorem decode_encode_roundtrip_witness :
    wfB sampleItem = true ∧ sizeOkB sampleItem = true ∧
      (encode sampleItem = .ok (encodeB sampleItem) ∧
        decode (encodeB sampleItem) = .ok (sampleItem, (encodeB sampleItem).length)) :=
  ⟨rfl, rfl, decode_encode_roundtrip sampleItem rfl rfl⟩

/-! ### Truncated buffers (spec §4.1 rejection, §8) -/

theorem parseSc_append {α : Type} (conv : List Nat → α) (w : Nat) :
    ∀ (n : Nat) (bs ext : List Nat), w * n ≤ bs.length →
      parseSc conv w n (bs ++ ext) =
        ((parseSc conv w n bs).1, (parseSc conv w n bs).2 ++ ext) := by
  intro n
  induction n with
  | zero => intro bs ext _; simp [parseSc]
  | succ n ih =>
    intro bs ext hle
    have hw : w ≤ bs.length := by
      have : w * (n + 1) = w * n + w := by ring
      omega
    have ht : (bs ++ ext).take w = bs.take w := List.take_append_of_le_length hw
    have hd : (bs ++ ext).drop w = bs.drop w ++ ext := List.drop_append_of_le_length hw
    have hle2 : w * n ≤ (bs.drop w).length := by
      simp only [List.length_drop]
      have : w * (n + 1) = w * n + w := by ring
      omega
    simp only [parseSc, ht, hd, ih (bs.drop w) ext hle2]

theorem decSc_error {α : Type} {mk : List α → Item} {conv : List Nat → α}
    {w len : Nat} {r1 : List Nat} {e : Error}
    (h : decSc mk conv w len r1 = .error e) : e = .MalformedItem := by
  simp only [decSc] at h
  split at h
  · cases h
  · exact (Except.error.inj h).symm

theorem decSc_extend {α : Type} {mk : List α → Item} {conv : List Nat → α}
    {w len : Nat} {r1 ext : List Nat} {i : Item} {rest : List Nat}
    (h : decSc mk conv w len r1 = .ok (i, rest)) :
    decSc mk conv w len (r1 ++ ext) = .ok (i, rest ++ ext) := by
  simp only [decSc] at h ⊢
  split at h
  · rename_i hcond
    have hle : w * (len / w) ≤ r1.length := by
      have h1 := Nat.div_mul_le_self len w
      have h2 : len / w * w = w * (len / w) := by ring
      omega
    have hp := parseSc_append conv w (len / w) r1 ext hle
    have hcond2 : len % w = 0 ∧ ¬ (r1 ++ ext).length < len := by
      constructor
      · exact hcond.1
      · have := hcond.2
        simp only [List.length_append]
        omega
    rw [if_pos hcond2, hp]
    cases h
    rfl
  · cases h

/-- The non-List part of the kind dispatch, which does not involve fuel;
definitionally the `code ≠ 0` branch of `decodeBody`. -/
def decodeScalarBody (code len : Nat) (r1 : List Nat) : Except Error (Item × List Nat) :=
  if code = 8 then
    if r1.length < len then .error .MalformedItem
    else .ok (.binary (r1.take len), r1.drop len)
  else if code = 9 then
    if r1.length < len then .error .MalformedItem
    else .ok (.boolean ((r1.take len).map (fun b => b != 0)), r1.drop len)
  else if code = 16 then
    if r1.length < len then .error .MalformedItem
    else .ok (.ascii (r1.take len), r1.drop len)
  else if code = 25 then decSc Item.i1 (bytesToInt 1) 1 len r1
  else if code = 26 then decSc Item.i2 (bytesToInt 2) 2 len r1
  else if code = 28 then decSc Item.i4 (bytesToInt 4) 4 len r1
  else if code = 24 then decSc Item.i8 (bytesToInt 8) 8 len r1
  else if code = 36 then decSc Item.f4 bytesToNat 4 len r1
  else if code = 32 then decSc Item.f8 bytesToNat 8 len r1
  else if code = 41 then decSc Item.u1 bytesToNat 1 len r1
  else if code = 42 then decSc Item.u2 bytesToNat 2 len r1
  else if code = 44 then decSc Item.u4 bytesToNat 4 len r1
  else if code = 40 then decSc Item.u8 bytesToNat 8 len r1
  else .error .MalformedItem

theorem decodeBody_ne_zero (fuel code len : Nat) (r1 : List Nat) (h : ¬ code = 0) :
    decodeBody fuel code len r1 = decodeScalarBody code len r1 := by
  simp only [decodeBody, decodeScalarBody, if_neg h]

theorem takeBody_extend (g : List Nat → Item) (len : Nat) (r1 ext : List Nat)
    (i : Item) (rest : List Nat)
    (h : (if r1.length < len then Except.error Error.MalformedItem
          else Except.ok (g (r1.take len), r1.drop len)) = .ok (i, rest)) :
    (if (r1 ++ ext).length < len then Except.error Error.MalformedItem
     else Except.ok (g ((r1 ++ ext).take len), (r1 ++ ext).drop len))
      = .ok (i, rest ++ ext) := by
  split at h
  · cases h
  · rename_i hlen
    cases h
    have hle : len ≤ r1.length := by omega
    rw [if_neg (by simp only [List.length_append]; omega)]
    rw [List.take_append_of_le_length hle, List.drop_append_of_le_length hle]

theorem decodeScalarBody_error {code len : Nat} {r1 : List Nat} {e : Error}
    (h : decodeScalarBody code len r1 = .error e) : e = .MalformedItem := by
  unfold decodeScalarBody at h
  by_cases h8 : code = 8
  · rw [if_pos h8] at h
    split at h
    · exact (Except.error.inj h).symm
    · cases h
  · rw [if_neg h8] at h
    by_cases h9 : code = 9
    · rw [if_pos h9] at h
      split at h
      · exact (Except.error.inj h).symm
      · cases h
    · rw [if_neg h9] at h
      by_cases h16 : code = 16
      · rw [if_pos h16] at h
        split at h
        · exact (Except.error.inj h).symm
        · cases h
      · rw [if_neg h16] at h
        by_cases h25 : code = 25
        · rw [if_pos h25] at h
          exact decSc_error h
        · rw [if_neg h25] at h
          by_cases h26 : code = 26
          · rw [if_pos h26] at h
            exact decSc_error h
          · rw [if_neg h26] at h
            by_cases h28 : code = 28
            · rw [if_pos h28] at h
              exact decSc_error h
            · rw [if_neg h28] at h
              by_cases h24 : code = 24
              · rw [if_pos h24] at h
                exact decSc_error h
              · rw [if_neg h24] at h
                by_cases h36 : code = 36
                · rw [if_pos h36] at h
                  exact decSc_error h
                · rw [if_neg h36] at h
                  by_cases h32 : code = 32
                  · rw [if_pos h32] at h
                    exact decSc_error h
                  · rw [if_neg h32] at h
                    by_cases h41 : code = 41
                    · rw [if_pos h41] at h
                      exact decSc_error h
                    · rw [if_neg h41] at h
                      by_cases h42 : code = 42
                      · rw [if_pos h42] at h
                        exact decSc_error h
                      · rw [if_neg h42] at h
                        by_cases h44 : code = 44
                        · rw [if_pos h44] at h
                          exact decSc_error h
                        · rw [if_neg h44] at h
                          by_cases h40 : code = 40
                          · rw [if_pos h40] at h
                            exact decSc_error h
                          · rw [if_neg h40] at h
                            exact (Except.error.inj h).symm

theorem decodeScalarBody_extend {code len : Nat} {r1 ext : List Nat} {i : Item}
    {rest : List Nat} (h : decodeScalarBody code len r1 = .ok (i, rest)) :
    decodeScalarBody code len (r1 ++ ext) = .ok (i, rest ++ ext) := by
  unfold decodeScalarBody at h ⊢
  by_cases h8 : code = 8
  · rw [if_pos h8] at h ⊢
    exact takeBody_extend Item.binary len r1 ext i rest h
  · rw [if_neg h8] at h ⊢
    by_cases h9 : code = 9
    · rw [if_pos h9] at h ⊢
      exact takeBody_extend (fun bs => Item.boolean (bs.map (fun b => b != 0)))
        len r1 ext i rest h
    · rw [if_neg h9] at h ⊢
      by_cases h16 : code = 16
      · rw [if_pos h16] at h ⊢
        exact takeBody_extend Item.ascii len r1 ext i rest h
      · rw [if_neg h16] at h ⊢
        by_cases h25 : code = 25
        · rw [if_pos h25] at h ⊢
          exact decSc_extend h
        · rw [if_neg h25] at h ⊢
          by_cases h26 : code = 26
          · rw [if_pos h26] at h ⊢
            exact decSc_extend h
          · rw [if_neg h26] at h ⊢
            by_cases h28 : code = 28
            · rw [if_pos h28] at h ⊢
              exact decSc_extend h
            · rw [if_neg h28] at h ⊢
              by_cases h24 : code = 24
              · rw [if_pos h24] at h ⊢
                exact decSc_extend h
              · rw [if_neg h24] at h ⊢
                by_cases h36 : code = 36
                · rw [if_pos h36] at h ⊢
                  exact decSc_extend h
                · rw [if_neg h36] at h ⊢
                  by_cases h32 : code = 32
                  · rw [if_pos h32] at h ⊢
                    exact decSc_extend h
                  · rw [if_neg h32] at h ⊢
                    by_cases h41 : code = 41
                    · rw [if_pos h41] at h ⊢
                      exact decSc_extend h
                    · rw [if_neg h41] at h ⊢
                      by_cases h42 : code = 42
                      · rw [if_pos h42] at h ⊢
                        exact decSc_extend h
                      · rw [if_neg h42] at h ⊢
                        by_cases h44 : code = 44
                        · rw [if_pos h44] at h ⊢
                          exact decSc_extend h
                        · rw [if_neg h44] at h ⊢
                          by_cases h40 : code = 40
                          · rw [if_pos h40] at h ⊢
                            exact decSc_extend h
                          · rw [if_neg h40] at h ⊢
                            cases h

/-- Every error the decoder ever reports is `MalformedItem`. -/
theorem decode_error_malformed :
    ∀ fuel, (∀ bs e, decodeF fuel bs = .error e → e = .MalformedItem) ∧
      (∀ n bs e, decodeItems fuel n bs = .error e → e = .MalformedItem) := by
  intro fuel
  induction fuel with
  | zero =>
    constructor
    · intro bs e h
      exact (Except.error.inj h).symm
    · intro n bs e h
      cases n with
      | zero => cases h
      | succ n => exact (Except.error.inj h).symm
  | succ fuel ih =>
    constructor
    · intro bs e h
      match bs with
      | [] => exact (Except.error.inj h).symm
      | fb :: r0 =>
        rw [decodeF_cons_eq] at h
        by_cases h0 : fb % 4 = 0
        · rw [if_pos h0] at h
          exact (Except.error.inj h).symm
        · rw [if_neg h0] at h
          by_cases h1 : r0.length < fb % 4
          · rw [if_pos h1] at h
            exact (Except.error.inj h).symm
          · rw [if_neg h1] at h
            by_cases hc : fb / 4 = 0
            · rw [hc, decodeBody_zero] at h
              split at h
              · cases h
              · rename_i e2 heq
                cases h
                exact ih.2 _ _ _ heq
            · rw [decodeBody_ne_zero _ _ _ _ hc] at h
              exact decodeScalarBody_error h
    · intro n bs e h
      match n with
      | 0 => cases h
      | n + 1 =>
        rw [decodeItems_succ] at h
        split at h
        · rename_i p heq
          split at h
          · cases h
          · rename_i e2 heq2
            cases h
            exact ih.2 _ _ _ heq2
        · rename_i e2 heq
          cases h
          exact ih.1 _ _ heq

/-- Decoding is incremental: appending bytes to a buffer that already decodes
does not change the decoded item, only the reported remainder. -/
theorem decodeF_extend :
    ∀ fuel, (∀ bs ext i rest, decodeF fuel bs = .ok (i, rest) →
        decodeF fuel (bs ++ ext) = .ok (i, rest ++ ext)) ∧
      (∀ n bs ext is rest, decodeItems fuel n bs = .ok (is, rest) →
        decodeItems fuel n (bs ++ ext) = .ok (is, rest ++ ext)) := by
  intro fuel
  induction fuel with
  | zero =>
    constructor
    · intro bs ext i rest h
      cases h
    · intro n bs ext is rest h
      cases n with
      | zero =>
        cases h
        rfl
      | succ n => cases h
  | succ fuel ih =>
    constructor
    · intro bs ext i rest h
      match bs with
      | [] => cases h
      | fb :: r0 =>
        by_cases h0 : fb % 4 = 0
        · rw [decodeF_cons_eq, if_pos h0] at h
          cases h
        · by_cases h1 : r0.length < fb % 4
          · rw [decodeF_cons_eq, if_neg h0, if_pos h1] at h
            cases h
          · rw [decodeF_cons fuel fb r0 h0 h1] at h
            have h1x : ¬ (r0 ++ ext).length < fb % 4 := by
              simp only [List.length_append]
              omega
            have hcons : (fb :: r0) ++ ext = fb :: (r0 ++ ext) := rfl
            rw [hcons, decodeF_cons fuel fb (r0 ++ ext) h0 h1x]
            have hle : fb % 4 ≤ r0.length := by omega
            rw [List.take_append_of_le_length hle, List.drop_append_of_le_length hle]
            revert h
            generalize r0.drop (fb % 4) = r1
            intro h
            by_cases hc : fb / 4 = 0
            · rw [hc] at h ⊢
              rw [decodeBody_zero] at h
              rw [decodeBody_zero]
              split at h
              · rename_i p heq
                cases h
                rw [ih.2 _ r1 ext p.1 p.2 (by rw [heq])]
              · cases h
            · rw [decodeBody_ne_zero _ _ _ _ hc] at h
              rw [decodeBody_ne_zero _ _ _ _ hc]
              exact decodeScalarBody_extend h
    · intro n bs ext is rest h
      match n with
      | 0 =>
        cases h
        rfl
      | n + 1 =>
        rw [decodeItems_succ] at h
        rw [decodeItems_succ]
        split at h
        · rename_i p heq
          split at h
          · rename_i q heq2
            cases h
            rw [ih.1 bs ext p.1 p.2 (by rw [heq])]
            have h2 := ih.2 n p.2 ext q.1 q.2 (by rw [heq2])
            show (match decodeItems fuel n (p.2 ++ ext) with
                  | .ok q2 => Except.ok (p.1 :: q2.1, q2.2)
                  | .error e => .error e) = Except.ok (p.1 :: q.1, q.2 ++ ext)
            rw [h2]
          · cases h
        · cases h

/-- Success is monotone in fuel: extra fuel never changes a successful
decode. -/
theorem decodeF_mono :
    ∀ fuel, (∀ bs i rest, decodeF fuel bs = .ok (i, rest) →
        decodeF (fuel + 1) bs = .ok (i, rest)) ∧
      (∀ n bs is rest, decodeItems fuel n bs = .ok (is, rest) →
        decodeItems (fuel + 1) n bs = .ok (is, rest)) := by
  intro fuel
  induction fuel with
  | zero =>
    constructor
    · intro bs i rest h
      cases h
    · intro n bs is rest h
      cases n with
      | zero =>
        cases h
        rfl
      | succ n => cases h
  | succ fuel ih =>
    constructor
    · intro bs i rest h
      match bs with
      | [] => cases h
      | fb :: r0 =>
        rw [decodeF_cons_eq] at h
        rw [decodeF_cons_eq]
        by_cases h0 : fb % 4 = 0
        · rw [if_pos h0] at h
          cases h
        · rw [if_neg h0] at h ⊢
          by_cases h1 : r0.length < fb % 4
          · rw [if_pos h1] at h
            cases h
          · rw [if_neg h1] at h ⊢
            by_cases hc : fb / 4 = 0
            · rw [hc] at h ⊢
              rw [decodeBody_zero] at h
              rw [decodeBody_zero]
              split at h
              · rename_i p heq
                cases h
                rw [ih.2 _ _ p.1 p.2 (by rw [heq])]
              · cases h
            · rw [decodeBody_ne_zero _ _ _ _ hc] at h
              rw [decodeBody_ne_zero _ _ _ _ hc]
              exact h
    · intro n bs is rest h
      match n with
      | 0 =>
        cases h
        rfl
      | n + 1 =>
        rw [decodeItems_succ] at h
        rw [decodeItems_succ]
        split at h
        · rename_i p heq
          split at h
          · rename_i q heq2
            cases h
            rw [ih.1 bs p.1 p.2 (by rw [heq])]
            have h2 := ih.2 n p.2 q.1 q.2 (by rw [heq2])
            show (match decodeItems (fuel + 1) n p.2 with
                  | .ok q2 => Except.ok (p.1 :: q2.1, q2.2)
                  | .error e => .error e) = Except.ok (p.1 :: q.1, q.2)
            rw [h2]
          · cases h
        · cases h

theorem decodeF_mono_le {fuel fuel' : Nat} (hle : fuel ≤ fuel') (bs : List Nat)
    (i : Item) (rest : List Nat) (h : decodeF fuel bs = .ok (i, rest)) :
    decodeF fuel' bs = .ok (i, rest) := by
  obtain ⟨d, rfl⟩ := Nat.exists_eq_add_of_le hle
  induction d with
  | zero => simpa using h
  | succ d ihd =>
    have hstep : fuel + (d + 1) = (fuel + d) + 1 := by ring
    rw [hstep]
    exact (decodeF_mono (fuel + d)).1 bs i rest (ihd (Nat.le_add_right fuel d))

/-- Claim C4: `Decode` on a truncated buffer — a strict prefix of a valid
encoding, so that some declared length field claims more bytes than remain —
returns the `MalformedItem` error.  `decode` is a total function on byte
lists (its `take`/`drop` accesses are bounds-checked by construction), so it
can neither panic nor read beyond the buffer. -/
theorem decode_truncated (i : Item) (p q : List Nat)
    (hwf : wfB i = true) (hsz : sizeOkB i = true)
    (hpq : encodeB i = p ++ q) (hq : q ≠ []) :
    decode p = .error .MalformedItem := by
  cases hdec : decodeF (p.length + 1) p with
  | error e =>
    have he := (decode_error_malformed (p.length + 1)).1 p e hdec
    subst he
    simp [decode, hdec]
  | ok pr =>
    exfalso
    obtain ⟨j, rest⟩ := pr
    have hext := (decodeF_extend (p.length + 1)).1 p q j rest hdec
    have hc : cost i ≤ (encodeB i).length + 1 := by
      have := cost_le i
      omega
    have hfull := (decode_encode_aux ((encodeB i).length + 1)).1 i [] hwf hsz hc
    rw [List.append_nil] at hfull
    have hlen : p.length + 1 ≤ (encodeB i).length + 1 := by
      have hlen2 : (encodeB i).length = p.length + q.length := by
        rw [hpq, List.length_append]
      omega
    have hext2 := decodeF_mono_le hlen (p ++ q) j (rest ++ q) hext
    rw [← hpq] at hext2
    rw [hfull] at hext2
    have hinj := Except.ok.inj hext2
    have hsnd : ([] : List Nat) = rest ++ q := congrArg Prod.snd hinj
    have hqnil : q = [] := (List.append_eq_nil.mp hsnd.symm).2
    exact hq hqnil

theorem decode_truncated_witness :
    wfB (Item.binary [7]) = true ∧ sizeOkB (Item.binary [7]) = true ∧
      encodeB (Item.binary [7]) = [33, 1] ++ [7] ∧ ([7] : List Nat) ≠ [] ∧
      decode [33, 1] = .error .MalformedItem :=
  ⟨rfl, rfl, rfl, by simp,
    decode_truncated (Item.binary [7]) [33, 1] [7] rfl rfl rfl (by simp)⟩

/-! ### Shape binder (spec §3, §4.2) -/

/-- Modelled from the spec: the kind of an `Item`, used for strict structural
matching of `Scalar` slots — numeric widths are part of the kind, so there is
no coercion between widths and no truncation. -/
inductive Kind where
  | list | binary | boolean | ascii
  | i1 | i2 | i4 | i8 | u1 | u2 | u4 | u8 | f4 | f8
deriving DecidableEq

/-- The kind tag of an item. -/
def kindOf : Item → Kind
  | .list _ => .list
  | .binary _ => .binary
  | .boolean _ => .boolean
  | .ascii _ => .ascii
  | .i1 _ => .i1
  | .i2 _ => .i2
  | .i4 _ => .i4
  | .i8 _ => .i8
  | .u1 _ => .u1
  | .u2 _ => .u2
  | .u4 _ => .u4
  | .u8 _ => .u8
  | .f4 _ => .f4
  | .f8 _ => .f8

/-- Modelled from the spec: a `Shape` — an ordered sequence of slot
descriptors, each a scalar of an expected `Item` kind, a fixed-arity
heterogeneous list, or a variable-arity homogeneous list (spec §3). -/
inductive Shape where
  | scalar (k : Kind)
  | fixedList (slots : List Shape)
  | varList (elem : Shape)

/-- Modelled from the spec: a typed message-body value to be bound against a
`Shape`: a scalar `Item` for a `Scalar` slot, a tuple for a `FixedList`, a
runtime-sized sequence for a `VariableList`. -/
inductive Value where
  | scalar (it : Item)
  | tuple (vs : List Value)
  | seq (vs : List Value)

mutual

/-- Modelled from the spec: `Bind(typed value, Shape) → Item` (spec §4.2) —
walks value and Shape together, producing a List for list slots (for
`VariableList` the runtime count becomes the List length, zero permitted and
not special-cased) and the scalar item for `Scalar` slots; fails with
`ShapeMismatch` when the value does not conform to the Shape. -/
def bind : Value → Shape → Except Error Item
  | .scalar it, .scalar k =>
    if kindOf it = k then .ok it else .error .ShapeMismatch
  | .tuple vs, .fixedList ss =>
    if vs.length = ss.length then
      match bindZip vs ss with
      | .ok its => .ok (.list its)
      | .error e => .error e
    else .error .ShapeMismatch
  | .seq vs, .varList s =>
    match bindAll vs s with
    | .ok its => .ok (.list its)
    | .error e => .error e
  | _, _ => .error .ShapeMismatch

/-- Bind a tuple of values against the matching fixed slots. -/
def bindZip : List Value → List Shape → Except Error (List Item)
  | [], _ => .ok []
  | v :: vs, s :: ss =>
    match bind v s with
    | .ok it =>
      match bindZip vs ss with
      | .ok its => .ok (it :: its)
      | .error e => .error e
    | .error e => .error e
  | _ :: _, [] => .error .ShapeMismatch

/-- Bind every element of a sequence against the one element Shape. -/
def bindAll : List Value → Shape → Except Error (List Item)
  | [], _ => .ok []
  | v :: vs, s =>
    match bind v s with
    | .ok it =>
      match bindAll vs s with
      | .ok its => .ok (it :: its)
      | .error e => .error e
    | .error e => .error e

end

mutual

/-- Modelled from the spec: `Unbind(Item, Shape) → typed value` (spec §4.2) —
the inverse walk; fails with `ShapeMismatch` when an item kind does not match
a `Scalar` slot's expected kind, when a List's child count differs from a
`FixedList` Shape's declared arity, or when a child of a `VariableList` is
not shape-compatible with the element Shape.  Matching is strict: the
expected kind includes the numeric width, so no coercion or truncation
occurs. -/
def unbind : Item → Shape → Except Error Value
  | it, .scalar k =>
    if kindOf it = k then .ok (.scalar it) else .error .ShapeMismatch
  | .list xs, .fixedList ss =>
    if xs.length = ss.length then
      match unbindZip xs ss with
      | .ok vs => .ok (.tuple vs)
      | .error e => .error e
    else .error .ShapeMismatch
  | .list xs, .varList s =>
    match unbindAll xs s with
    | .ok vs => .ok (.seq vs)
    | .error e => .error e
  | _, _ => .error .ShapeMismatch

/-- Unbind a List's children against the matching fixed slots. -/
def unbindZip : List Item → List Shape → Except Error (List Value)
  | [], _ => .ok []
  | x :: xs, s :: ss =>
    match unbind x s with
    | .ok v =>
      match unbindZip xs ss with
      | .ok vs => .ok (v :: vs)
      | .error e => .error e
    | .error e => .error e
  | _ :: _, [] => .error .ShapeMismatch

/-- Unbind every child of a List against the one element Shape. -/
def unbindAll : List Item → Shape → Except Error (List Value)
  | [], _ => .ok []
  | x :: xs, s =>
    match unbind x s with
    | .ok v =>
      match unbindAll xs s with
      | .ok vs => .ok (v :: vs)
      | .error e => .error e
    | .error e => .error e

end

theorem bindZip_length : ∀ (vs : List Value) (ss : List Shape) (its : List Item),
    bindZip vs ss = .ok its → its.length = vs.length := by
  intro vs
  induction vs with
  | nil =>
    intro ss its h
    cases h
    rfl
  | cons v vs ih =>
    intro ss its h
    cases ss with
    | nil => cases h
    | cons s ss =>
      simp only [bindZip] at h
      split at h
      · split at h
        · rename_i a1 it hb a2 its2 hz
          cases h
          simp [ih ss its2 hz]
        · cases h
      · cases h

/-- If every element of `vs` satisfies the bind/unbind inverse property, so
does the zipped tuple binding. -/
theorem unbindZip_bindZip (vs : List Value)
    (helem : ∀ v ∈ vs, ∀ s i, bind v s = .ok i → unbind i s = .ok v) :
    ∀ ss its, bindZip vs ss = .ok its → unbindZip its ss = .ok vs := by
  induction vs with
  | nil =>
    intro ss its h
    cases h
    rfl
  | cons v vs ih =>
    intro ss its h
    cases ss with
    | nil => cases h
    | cons s ss =>
      simp only [bindZip] at h
      split at h
      · split at h
        · rename_i a1 it hb a2 its2 hz
          cases h
          have h1 := helem v (List.mem_cons_self v vs) s it hb
          have h2 := ih (fun w hw => helem w (List.mem_cons_of_mem v hw)) ss its2 hz
          simp only [unbindZip]
          rw [h1]
          show (match unbindZip its2 ss with
                | .ok ws => Except.ok (v :: ws)
                | .error e => .error e) = Except.ok (v :: vs)
          rw [h2]
        · cases h
      · cases h

/-- If every element of `vs` satisfies the bind/unbind inverse property, so
does the homogeneous sequence binding. -/
theorem unbindAll_bindAll (vs : List Value)
    (helem : ∀ v ∈ vs, ∀ s i, bind v s = .ok i → unbind i s = .ok v) :
    ∀ s its, bindAll vs s = .ok its → unbindAll its s = .ok vs := by
  induction vs with
  | nil =>
    intro s its h
    cases h
    rfl
  | cons v vs ih =>
    intro s its h
    simp only [bindAll] at h
    split at h
    · split at h
      · rename_i a1 it hb a2 its2 hz
        cases h
        have h1 := helem v (List.mem_cons_self v vs) s it hb
        have h2 := ih (fun w hw => helem w (List.mem_cons_of_mem v hw)) s its2 hz
        simp only [unbindAll]
        rw [h1]
        show (match unbindAll its2 s with
              | .ok ws => Except.ok (v :: ws)
              | .error e => .error e) = Except.ok (v :: vs)
        rw [h2]
      · cases h
    · cases h

theorem unbind_bind_aux :
    ∀ n (v : Value), sizeOf v ≤ n → ∀ s i, bind v s = .ok i → unbind i s = .ok v := by
  intro n
  induction n using Nat.strong_induction_on with
  | _ n ih =>
    intro v hsz s i hb
    cases v with
    | scalar it =>
      cases s with
      | scalar k =>
        simp only [bind] at hb
        split at hb
        · rename_i hk
          cases hb
          simp [unbind, hk]
        · cases hb
      | fixedList ss => cases hb
      | varList s2 => cases hb
    | tuple vs =>
      cases s with
      | scalar k => cases hb
      | fixedList ss =>
        have hvsn : sizeOf vs < n := by
          have hspec : sizeOf (Value.tuple vs) = 1 + sizeOf vs := by simp
          omega
        have helem : ∀ w ∈ vs, ∀ s2 j, bind w s2 = .ok j → unbind j s2 = .ok w := by
          intro w hw s2 j hj
          have hlt : sizeOf w < sizeOf vs := List.sizeOf_lt_of_mem hw
          exact ih (sizeOf w) (by omega) w (le_refl _) s2 j hj
        simp only [bind] at hb
        split at hb
        · rename_i hlen
          split at hb
          · rename_i a1 its hz
            cases hb
            have hlen2 : its.length = vs.length := bindZip_length vs ss its hz
            have hz2 := unbindZip_bindZip vs helem ss its hz
            simp only [unbind]
            rw [if_pos (by omega : its.length = ss.length)]
            rw [hz2]
          · cases hb
        · cases hb
      | varList s2 => cases hb
    | seq vs =>
      cases s with
      | scalar k => cases hb
      | fixedList ss => cases hb
      | varList s2 =>
        have hvsn : sizeOf vs < n := by
          have hspec : sizeOf (Value.seq vs) = 1 + sizeOf vs := by simp
          omega
        have helem : ∀ w ∈ vs, ∀ s3 j, bind w s3 = .ok j → unbind j s3 = .ok w := by
          intro w hw s3 j hj
          have hlt : sizeOf w < sizeOf vs := List.sizeOf_lt_of_mem hw
          exact ih (sizeOf w) (by omega) w (le_refl _) s3 j hj
        simp only [bind] at hb
        split at hb
        · rename_i a1 its ha
          cases hb
          have ha2 := unbindAll_bindAll vs helem s2 its ha
          simp only [unbind]
          rw [ha2]
        · cases hb

/-- Claim C2: for every typed value `V` that conforms to a declared Shape `S`
(that is, `Bind` succeeds on it), unbinding the item produced by binding
yields exactly `V` again — `Unbind` is a left inverse of `Bind`.  Matching is
strict: the expected kind carries the numeric width, so the exact value
equality rules out any coercion between widths or truncation. -/
theorem unbind_bind (v : Value) (s : Shape) (i : Item) (h : bind v s = .ok i) :
    unbind i s = .ok v :=
  unbind_bind_aux (sizeOf v) v (le_refl _) s i h

/-- The declared 3-slot body Shape of an alarm report (S5F1): alarm code
(binary), alarm identifier (unsigned numeric), alarm text (ascii). -/
def alarmReportShape : Shape :=
  .fixedList [.scalar .binary, .scalar .u2, .scalar .ascii]

/-- A concrete alarm-report value `(code, id, text)`. -/
def alarmReportValue : Value :=
  .tuple [.scalar (.binary [1]), .scalar (.u2 [42]),
          .scalar (.ascii [79, 86, 69, 82, 32, 84, 69, 77, 80])]

theorem unbind_bind_witness :
    bind alarmReportValue alarmReportShape =
      .ok (.list [.binary [1], .u2 [42],
        .ascii [79, 86, 69, 82, 32, 84, 69, 77, 80]]) ∧
    unbind (.list [.binary [1], .u2 [42],
        .ascii [79, 86, 69, 82, 32, 84, 69, 77, 80]]) alarmReportShape =
      .ok alarmReportValue :=
  ⟨rfl, unbind_bind alarmReportValue alarmReportShape _ rfl⟩

/-- Claim C5: `Unbind` on a List whose child count differs from a `FixedList`
Shape's declared arity fails with `ShapeMismatch`, in both mismatch
directions (too few and too many children). -/
theorem unbind_fixedList_arity (xs : List Item) (ss : List Shape)
    (h : xs.length ≠ ss.length) :
    unbind (.list xs) (.fixedList ss) = .error .ShapeMismatch := by
  simp only [unbind]
  rw [if_neg h]

theorem unbind_fixedList_arity_witness :
    unbind (.list []) (.fixedList [.scalar .u2]) = .error .ShapeMismatch ∧
    unbind (.list [.u2 [1], .u2 [2]]) (.fixedList [.scalar .u2]) =
      .error .ShapeMismatch :=
  ⟨unbind_fixedList_arity [] [.scalar .u2] (by simp),
   unbind_fixedList_arity [.u2 [1], .u2 [2]] [.scalar .u2] (by simp)⟩

/-- Modelled from the spec: the declared body Shape of `ListAlarmsRequest`
(S5F5) — a variable-length list of alarm identifiers (`VecList<AlarmID>` in
the catalog source); the identifier is a fixed-width unsigned numeric,
modelled at the 4-byte width. -/
def listAlarmsRequestShape : Shape := .varList (.scalar .u4)

/-- Claim C9: binding a list-alarms-request value whose identifier list is
empty produces a List Item of length 0 — the binder does not special-case or
reject the empty list; encoding that item, then decoding the bytes and
unbinding against the same Shape, yields the empty sequence as a successful
result, distinct from any decode or shape failure. -/
theorem listAlarmsRequest_empty_roundtrip :
    bind (.seq []) listAlarmsRequestShape = .ok (.list []) ∧
    encode (.list []) = .ok [1, 0] ∧
    decode [1, 0] = .ok (.list [], 2) ∧
    unbind (.list []) listAlarmsRequestShape = .ok (.seq []) :=
  ⟨rfl, rfl, rfl, rfl⟩

/-! ### Message envelope (spec §4.3) -/

/-- Modelled from the spec: a message envelope — header metadata (stream,
function, reply-expected flag) plus an optional body (`none` for header-only
messages).  The transport-assigned transaction identifier is opaque to this
core and omitted. -/
structure Envelope where
  stream : Nat
  function : Nat
  replyExpected : Bool
  body : Option Item

/-- Modelled from the spec: the fixed contract a message type implements —
its stream and function numbers, the reply-expected flag, the declared body
Shape (`none` for header-only), and whether multi-block segmentation is
permitted. -/
structure MsgContract where
  stream : Nat
  function : Nat
  reply : Bool
  shape : Option Shape
  multiBlock : Bool

/-- Modelled from the spec: `ToEnvelope(typed value) → Envelope` using Bind
(spec §4.3). -/
def toEnvelope (t : MsgContract) (v : Option Value) : Except Error Envelope :=
  match t.shape, v with
  | none, none => .ok ⟨t.stream, t.function, t.reply, none⟩
  | some s, some w =>
    match bind w s with
    | .ok i => .ok ⟨t.stream, t.function, t.reply, some i⟩
    | .error e => .error e
  | _, _ => .error .ShapeMismatch

/-- Modelled from the spec: `FromEnvelope(Envelope) → typed value or error`
using Unbind, additionally checking the envelope's stream/function numbers
against the expected type (fails with `WrongMessageType` otherwise) and the
reply-expected flag against the declared contract (fails with
`ReplyBitMismatch` otherwise) (spec §4.3). -/
def fromEnvelope (t : MsgContract) (e : Envelope) : Except Error (Option Value) :=
  if e.stream = t.stream ∧ e.function = t.function then
    if e.replyExpected = t.reply then
      match t.shape, e.body with
      | none, none => .ok none
      | some s, some i =>
        match unbind i s with
        | .ok v => .ok (some v)
        | .error e2 => .error e2
      | _, _ => .error .ShapeMismatch
    else .error .ReplyBitMismatch
  else .error .WrongMessageType

/-- Claim C6: `FromEnvelope` fails with `WrongMessageType` whenever the
envelope's stream or function number differs from the type's declared pair,
fails with `ReplyBitMismatch` whenever stream/function match but the
reply-expected flag differs from the declared contract, and returns a typed
value only when both checks pass and `Unbind` succeeds on the body. -/
theorem fromEnvelope_checks (t : MsgContract) (e : Envelope) :
    (¬ (e.stream = t.stream ∧ e.function = t.function) →
      fromEnvelope t e = .error .WrongMessageType) ∧
    (e.stream = t.stream → e.function = t.function → e.replyExpected ≠ t.reply →
      fromEnvelope t e = .error .ReplyBitMismatch) ∧
    (∀ v, fromEnvelope t e = .ok v →
      e.stream = t.stream ∧ e.function = t.function ∧ e.replyExpected = t.reply ∧
        ((t.shape = none ∧ e.body = none ∧ v = none) ∨
          (∃ s i w, t.shape = some s ∧ e.body = some i ∧
            unbind i s = .ok w ∧ v = some w))) := by
  refine ⟨?_, ?_, ?_⟩
  · intro h
    simp only [fromEnvelope]
    rw [if_neg h]
  · intro h1 h2 h3
    simp only [fromEnvelope]
    rw [if_pos ⟨h1, h2⟩, if_neg h3]
  · intro v h
    simp only [fromEnvelope] at h
    split at h
    · rename_i hsf
      split at h
      · rename_i hr
        split at h
        · rename_i hs hb
          cases h
          exact ⟨hsf.1, hsf.2, hr, Or.inl ⟨hs, hb, rfl⟩⟩
        · rename_i s i hs hb
          split at h
          · rename_i w hu
            cases h
            exact ⟨hsf.1, hsf.2, hr, Or.inr ⟨s, i, w, hs, hb, hu, rfl⟩⟩
          · cases h
        · cases h
      · cases h
    · cases h

/-- The contract of the alarm report message (S5F1). -/
def sampleContract : MsgContract := ⟨5, 1, true, some alarmReportShape, false⟩

theorem fromEnvelope_checks_witness :
    fromEnvelope sampleContract ⟨5, 2, true, none⟩ = .error .WrongMessageType ∧
    fromEnvelope sampleContract ⟨5, 1, false, none⟩ = .error .ReplyBitMismatch :=
  ⟨(fromEnvelope_checks sampleContract ⟨5, 2, true, none⟩).1 (by simp [sampleContract]),
   (fromEnvelope_checks sampleContract ⟨5, 1, false, none⟩).2.1 rfl rfl
     (by simp [sampleContract])⟩

/-! ### Block segmenter (spec §4.4) -/

/-- Modelled from the spec: one transport block — its ordinal (numbered
consecutively from 1), a final-block marker, and its slice of the encoded
body. -/
structure Block where
  ordinal : Nat
  final : Bool
  payload : List Nat
deriving DecidableEq

/-- Build `n` consecutively numbered blocks starting at ordinal `start`, each
carrying up to `B` payload bytes, with the final-block marker on the last. -/
def mkBlocks (B : Nat) : Nat → Nat → List Nat → List Block
  | _, 0, _ => []
  | start, n + 1, bs =>
    ⟨start, n = 0, bs.take B⟩ :: mkBlocks B (start + 1) n (bs.drop B)

/-- Number of blocks for an encoded body of size `L` with single-block limit
`B`: the ceiling of `L / B`. -/
def numBlocks (B L : Nat) : Nat := (L + B - 1) / B

/-- The block list produced for a body that needs `numBlocks` blocks. -/
def segBlocks (B : Nat) (body : List Nat) : List Block :=
  mkBlocks B 1 (numBlocks B body.length) body

/-- Modelled from the spec: `Segment` — a body within the single-block limit
is sent as one final block; a larger body is split into consecutively
numbered blocks of at most `B` bytes when the message type permits
multi-block, and fails with `SegmentationNotPermitted` when the type is
single-block-only and the limit is exceeded (spec §4.4). -/
def segment (multi : Bool) (B : Nat) (body : List Nat) : Except Error (List Block) :=
  if body.length ≤ B then .ok [⟨1, true, body⟩]
  else if multi then .ok (segBlocks B body)
  else .error .SegmentationNotPermitted

/-- Reassembly state: next expected ordinal, out-of-order blocks buffered
within the reorder window, output accumulated so far, and the ordinal of the
final-marked block once seen. -/
structure RState where
  next : Nat
  pending : List Block
  out : List Nat
  finalOrd : Option Nat

/-- Record a block's final-block marker. -/
def noteFinal (b : Block) (fo : Option Nat) : Option Nat :=
  if b.final then some b.ordinal else fo

/-- Drain buffered blocks that have become in-order (fuel bounds the number
of drained blocks by the pending count). -/
def drainF : Nat → RState → RState
  | 0, s => s
  | f + 1, s =>
    match s.pending.find? (fun p => p.ordinal == s.next) with
    | none => s
    | some b =>
      drainF f { next := s.next + 1,
                 pending := s.pending.filter (fun p => p.ordinal != s.next),
                 out := s.out ++ b.payload,
                 finalOrd := s.finalOrd }

/-- Modelled from the spec: process one inbound block — duplicates are
ignored; the expected ordinal is consumed (draining any buffered
successors); an out-of-order ordinal within the reorder window `W` is
buffered, not rejected; an ordinal beyond the window is an unrecoverable gap,
reported as `OrdinalGap` (spec §4.4). -/
def stepR (W : Nat) (s : RState) (b : Block) : Except Error RState :=
  if b.ordinal < s.next then .ok s
  else if b.ordinal = s.next then
    .ok (drainF s.pending.length
      { next := s.next + 1, pending := s.pending,
        out := s.out ++ b.payload, finalOrd := noteFinal b s.finalOrd })
  else if b.ordinal ≤ s.next + W then
    .ok { s with pending := s.pending ++ [b], finalOrd := noteFinal b s.finalOrd }
  else .error .OrdinalGap

/-- Fold the inbound blocks through `stepR`, stopping at the first error. -/
def runBlocks (W : Nat) (s : RState) : List Block → Except Error RState
  | [] => .ok s
  | b :: bs =>
    match stepR W s b with
    | .ok s2 => runBlocks W s2 bs
    | .error e => .error e

/-- Modelled from the spec: `Reassemble` — accumulate blocks by ordinal under
reorder window `W`; succeeds once every ordinal up to and including the
final-marked block has been consumed, handing back the concatenated payload;
fails with `IncompleteMessage` when no final block was consumed (spec §4.4). -/
def reassemble (W : Nat) (blocks : List Block) : Except Error (List Nat) :=
  match runBlocks W ⟨1, [], [], none⟩ blocks with
  | .ok s =>
    match s.finalOrd with
    | some m => if m < s.next then .ok s.out else .error .IncompleteMessage
    | none => .error .IncompleteMessage
  | .error e => .error e

@[simp] theorem mkBlocks_length (B : Nat) :
    ∀ n start bs, (mkBlocks B start n bs).length = n := by
  intro n
  induction n with
  | zero => intro start bs; rfl
  | succ n ih => intro start bs; simp [mkBlocks, ih]

theorem mkBlocks_get (B : Nat) :
    ∀ n start bs j (h : j < (mkBlocks B start n bs).length),
      ((mkBlocks B start n bs)[j]).ordinal = start + j ∧
      (((mkBlocks B start n bs)[j]).final = true ↔ j + 1 = n) := by
  intro n
  induction n with
  | zero =>
    intro start bs j h
    simp [mkBlocks] at h
  | succ n ih =>
    intro start bs j h
    cases j with
    | zero =>
      constructor
      · simp [mkBlocks]
      · simp [mkBlocks]
    | succ j =>
      have hlen : j < (mkBlocks B (start + 1) n (bs.drop B)).length := by
        simp only [mkBlocks_length]
        simp only [mkBlocks, List.length_cons, mkBlocks_length] at h
        omega
      have hrec := ih (start + 1) (bs.drop B) j hlen
      have heq : (mkBlocks B start (n + 1) bs)[j + 1] =
          (mkBlocks B (start + 1) n (bs.drop B))[j] := by
        simp [mkBlocks]
      rw [heq]
      constructor
      · have h1 := hrec.1
        omega
      · rw [hrec.2]
        omega

theorem mkBlocks_payload (B : Nat) :
    ∀ n (start : Nat) (bs : List Nat), bs.length ≤ n * B →
      catMap Block.payload (mkBlocks B start n bs) = bs := by
  intro n
  induction n with
  | zero =>
    intro start bs h
    have hnil : bs = [] := List.eq_nil_of_length_eq_zero (by omega)
    simp [mkBlocks, hnil]
  | succ n ih =>
    intro start bs h
    have hmul : (n + 1) * B = n * B + B := by ring
    have hrec := ih (start + 1) (bs.drop B) (by simp only [List.length_drop]; omega)
    simp only [mkBlocks, catMap_cons, hrec, List.take_append_drop]

theorem runBlocks_append (W : Nat) : ∀ (xs ys : List Block) (s : RState),
    runBlocks W s (xs ++ ys) =
      match runBlocks W s xs with
      | .ok s2 => runBlocks W s2 ys
      | .error e => .error e := by
  intro xs
  induction xs with
  | nil => intro ys s; rfl
  | cons b xs ih =>
    intro ys s
    simp only [List.cons_append, runBlocks]
    cases hstep : stepR W s b with
    | ok s2 => exact ih ys s2
    | error e => rfl

/-- Consuming a run of consecutively numbered blocks from a clean state
advances `next` by the run length and keeps the buffer empty. -/
theorem runBlocks_consume (W : Nat) : ∀ (blocks : List Block) (s : RState),
    s.pending = [] →
    (∀ j (h : j < blocks.length), (blocks[j]).ordinal = s.next + j) →
    ∃ s2, runBlocks W s blocks = .ok s2 ∧ s2.next = s.next + blocks.length ∧
      s2.pending = [] := by
  intro blocks
  induction blocks with
  | nil =>
    intro s hp _
    exact ⟨s, rfl, by simp, hp⟩
  | cons b bs ih =>
    intro s hp hord
    have h0 : b.ordinal = s.next := by
      have hx := hord 0 (by simp)
      simp only [List.getElem_cons_zero] at hx
      omega
    have hstep : stepR W s b =
        .ok ⟨s.next + 1, [], s.out ++ b.payload, noteFinal b s.finalOrd⟩ := by
      simp [stepR, h0, hp, drainF]
    have hord2 : ∀ j (h : j < bs.length), (bs[j]).ordinal = (s.next + 1) + j := by
      intro j h
      have hx := hord (j + 1) (by simp only [List.length_cons]; omega)
      simp only [List.getElem_cons_succ] at hx
      omega
    obtain ⟨s2, hrun, hnext, hpend⟩ := ih (RState.mk (s.next + 1) []
      (s.out ++ b.payload) (noteFinal b s.finalOrd)) rfl hord2
    refine ⟨s2, ?_, ?_, hpend⟩
    · simp only [runBlocks, hstep]
      exact hrun
    · simp only [List.length_cons]
      simp only [hnext]
      omega

/-- Blocks whose ordinals all lie strictly inside the reorder window are
buffered, leaving `next` unchanged. -/
theorem runBlocks_buffer (W : Nat) : ∀ (blocks : List Block) (s : RState),
    (∀ j (h : j < blocks.length), s.next < (blocks[j]).ordinal ∧
      (blocks[j]).ordinal ≤ s.next + W) →
    ∃ s2, runBlocks W s blocks = .ok s2 ∧ s2.next = s.next := by
  intro blocks
  induction blocks with
  | nil =>
    intro s _
    exact ⟨s, rfl, rfl⟩
  | cons b bs ih =>
    intro s hord
    have h0 := hord 0 (by simp)
    simp only [List.getElem_cons_zero] at h0
    have hstep : stepR W s b = .ok (RState.mk s.next (s.pending ++ [b]) s.out
        (noteFinal b s.finalOrd)) := by
      simp only [stepR]
      rw [if_neg (by omega), if_neg (by omega), if_pos h0.2]
    have hord2 : ∀ j (h : j < bs.length), s.next < (bs[j]).ordinal ∧
        (bs[j]).ordinal ≤ s.next + W := by
      intro j h
      have hx := hord (j + 1) (by simp only [List.length_cons]; omega)
      simp only [List.getElem_cons_succ] at hx
      exact hx
    obtain ⟨s2, hrun, hnext⟩ := ih (RState.mk s.next (s.pending ++ [b]) s.out
      (noteFinal b s.finalOrd)) hord2
    refine ⟨s2, ?_, hnext⟩
    simp only [runBlocks, hstep]
    exact hrun

/-- Folding the exact block sequence produced by `mkBlocks` from a clean
state consumes every block in order. -/
theorem runBlocks_inorder (W B : Nat) :
    ∀ n (start : Nat) (bs : List Nat) (out : List Nat) (fo : Option Nat),
      runBlocks W ⟨start, [], out, fo⟩ (mkBlocks B start n bs) =
        .ok ⟨start + n, [], out ++ catMap Block.payload (mkBlocks B start n bs),
             if n = 0 then fo else some (start + n - 1)⟩ := by
  intro n
  induction n with
  | zero =>
    intro start bs out fo
    simp [mkBlocks, runBlocks, catMap]
  | succ n ih =>
    intro start bs out fo
    have hstep : stepR W ⟨start, [], out, fo⟩ ⟨start, decide (n = 0), bs.take B⟩ =
        .ok ⟨start + 1, [], out ++ bs.take B,
             if n = 0 then some start else fo⟩ := by
      by_cases hn : n = 0 <;>
        simp [stepR, drainF, noteFinal, hn]
    simp only [mkBlocks, runBlocks]
    rw [hstep]
    show runBlocks W ⟨start + 1, [], out ++ bs.take B, if n = 0 then some start else fo⟩
        (mkBlocks B (start + 1) n (bs.drop B)) = _
    rw [ih (start + 1) (bs.drop B) (out ++ bs.take B) (if n = 0 then some start else fo)]
    by_cases hn : n = 0
    · subst hn
      simp [mkBlocks, catMap]
    · have h1 : start + 1 + n = start + (n + 1) := by omega
      have h2 : start + 1 + n - 1 = start + (n + 1) - 1 := by omega
      simp only [if_neg hn, if_neg (show ¬ n + 1 = 0 by omega), mkBlocks, catMap_cons,
        List.append_assoc, h1, h2]

/-- The ordinal of every produced block is its position plus one. -/
theorem segBlocks_ordinal (B : Nat) (body : List Nat) :
    ∀ j (h : j < (segBlocks B body).length), ((segBlocks B body)[j]).ordinal = 1 + j := by
  intro j h
  have hx := (mkBlocks_get B (numBlocks B body.length) 1 body j
    (by simpa [segBlocks] using h)).1
  simpa [segBlocks] using hx

/-- Reassembly with one ordinal missing and more than `W` blocks after the
gap fails with `OrdinalGap`. -/
theorem reassemble_gap (B W k : Nat) (body : List Nat)
    (hk : k + 1 + W < (segBlocks B body).length) :
    reassemble W ((segBlocks B body).eraseIdx k) = .error .OrdinalGap := by
  have hord := segBlocks_ordinal B body
  have hpre : ∀ j (h : j < ((segBlocks B body).take k).length),
      (((segBlocks B body).take k)[j]).ordinal =
        (RState.mk 1 [] [] none).next + j := by
    intro j h
    have hj : j < (segBlocks B body).length := by
      simp only [List.length_take] at h
      omega
    rw [List.getElem_take]
    exact hord j hj
  obtain ⟨s1, hrun1, hnext1, hpend1⟩ := runBlocks_consume W ((segBlocks B body).take k)
    ⟨1, [], [], none⟩ rfl hpre
  have hklen : ((segBlocks B body).take k).length = k := by
    simp only [List.length_take]
    omega
  have hs1 : s1.next = 1 + k := by
    rw [hnext1, hklen]
  have hmid : ∀ j (h : j < (((segBlocks B body).drop (k + 1)).take W).length),
      s1.next < ((((segBlocks B body).drop (k + 1)).take W)[j]).ordinal ∧
      ((((segBlocks B body).drop (k + 1)).take W)[j]).ordinal ≤ s1.next + W := by
    intro j h
    have hjW : j < W := by
      simp only [List.length_take, List.length_drop] at h
      omega
    have hj2 : k + 1 + j < (segBlocks B body).length := by omega
    have hx : ((((segBlocks B body).drop (k + 1)).take W)[j]).ordinal
        = 1 + (k + 1 + j) := by
      rw [List.getElem_take, List.getElem_drop]
      exact hord (k + 1 + j) hj2
    rw [hx, hs1]
    constructor <;> omega
  obtain ⟨s2, hrun2, hnext2⟩ := runBlocks_buffer W
    (((segBlocks B body).drop (k + 1)).take W) s1 hmid
  have hs2 : s2.next = 1 + k := by
    rw [hnext2, hs1]
  have hsplit3 : (segBlocks B body).drop (k + 1 + W) =
      (segBlocks B body)[k + 1 + W] :: (segBlocks B body).drop (k + 1 + W + 1) :=
    List.drop_eq_getElem_cons hk
  have hlist : (segBlocks B body).eraseIdx k =
      (segBlocks B body).take k ++ (((segBlocks B body).drop (k + 1)).take W ++
        ((segBlocks B body)[k + 1 + W] :: (segBlocks B body).drop (k + 1 + W + 1))) := by
    rw [List.eraseIdx_eq_take_drop_succ]
    congr 1
    calc (segBlocks B body).drop (k + 1)
        = ((segBlocks B body).drop (k + 1)).take W ++
            ((segBlocks B body).drop (k + 1)).drop W :=
          (List.take_append_drop W _).symm
      _ = ((segBlocks B body).drop (k + 1)).take W ++
            ((segBlocks B body)[k + 1 + W] :: (segBlocks B body).drop (k + 1 + W + 1)) := by
          rw [List.drop_drop, hsplit3]
  have hstepE : stepR W s2 ((segBlocks B body)[k + 1 + W]) = .error .OrdinalGap := by
    have hordT : ((segBlocks B body)[k + 1 + W]).ordinal = 1 + (k + 1 + W) :=
      hord (k + 1 + W) hk
    simp only [stepR, hordT]
    rw [if_neg (by omega), if_neg (by omega), if_neg (by omega)]
  have hrunE : runBlocks W ⟨1, [], [], none⟩ ((segBlocks B body).eraseIdx k) =
      .error .OrdinalGap := by
    rw [hlist, runBlocks_append, hrun1]
    show runBlocks W s1 (((segBlocks B body).drop (k + 1)).take W ++
        ((segBlocks B body)[k + 1 + W] :: (segBlocks B body).drop (k + 1 + W + 1))) =
      .error .OrdinalGap
    rw [runBlocks_append, hrun2]
    show runBlocks W s2 ((segBlocks B body)[k + 1 + W] ::
        (segBlocks B body).drop (k + 1 + W + 1)) = .error .OrdinalGap
    simp only [runBlocks, hstepE]
  simp only [reassemble, hrunE]

/-- Claim C7: for an encoded body of size `L` and single-block limit `B`,
when the message type permits multi-block, `Segment` produces exactly
`ceil(L/B)` consecutively numbered blocks with the final marker on the last
one; `Reassemble` applied to those blocks in original order reproduces the
body byte-for-byte; `Reassemble` with one ordinal missing and more than `W`
following blocks (past the reorder window) fails with `OrdinalGap`; and a
single-block-only type whose body exceeds `B` fails with
`SegmentationNotPermitted`. -/
theorem segment_reassemble (body : List Nat) (B W k : Nat)
    (hB : 0 < B) (hL : 0 < body.length) :
    segment true B body = .ok (segBlocks B body) ∧
    (segBlocks B body).length = numBlocks B body.length ∧
    (∀ j (h : j < (segBlocks B body).length),
      ((segBlocks B body)[j]).ordinal = j + 1 ∧
      (((segBlocks B body)[j]).final = true ↔ j + 1 = (segBlocks B body).length)) ∧
    reassemble W (segBlocks B body) = .ok body ∧
    (k + 1 + W < (segBlocks B body).length →
      reassemble W ((segBlocks B body).eraseIdx k) = .error .OrdinalGap) ∧
    (B < body.length → segment false B body = .error .SegmentationNotPermitted) := by
  have hq := Nat.div_add_mod (body.length + B - 1) B
  have hr := Nat.mod_lt (body.length + B - 1) hB
  have hn1 : 1 ≤ numBlocks B body.length := by
    simp only [numBlocks]
    rw [Nat.le_div_iff_mul_le hB]
    omega
  have hup : body.length ≤ numBlocks B body.length * B := by
    have h4 : B * ((body.length + B - 1) / B) =
        (body.length + B - 1) - (body.length + B - 1) % B := Nat.eq_sub_of_add_eq hq
    simp only [numBlocks]
    rw [Nat.mul_comm, h4]
    omega
  refine ⟨?_, ?_, ?_, ?_, reassemble_gap B W k body, ?_⟩
  · by_cases hle : body.length ≤ B
    · have hone : numBlocks B body.length = 1 := by
        have hlt2 : (body.length + B - 1) / B < 2 := by
          rw [Nat.div_lt_iff_lt_mul hB]
          omega
        simp only [numBlocks] at hn1 ⊢
        omega
      simp [segment, if_pos hle, segBlocks, hone, mkBlocks, List.take_of_length_le hle]
    · simp [segment, hle]
  · simp [segBlocks]
  · intro j h
    have hx := mkBlocks_get B (numBlocks B body.length) 1 body j
      (by simpa [segBlocks] using h)
    constructor
    · have h1 : ((segBlocks B body)[j]).ordinal = 1 + j := by
        simp only [segBlocks]
        exact hx.1
      omega
    · have h2 : ((segBlocks B body)[j]).final = true ↔ j + 1 = numBlocks B body.length := by
        simp only [segBlocks]
        exact hx.2
      rw [h2]
      simp [segBlocks]
  · have hrun := runBlocks_inorder W B (numBlocks B body.length) 1 body [] none
    have hpay := mkBlocks_payload B (numBlocks B body.length) 1 body hup
    have hfo : (if numBlocks B body.length = 0 then (none : Option Nat)
        else some (1 + numBlocks B body.length - 1)) = some (numBlocks B body.length) := by
      rw [if_neg (by omega)]
      congr 1
      omega
    rw [hpay, hfo] at hrun
    simp only [reassemble, segBlocks]
    rw [hrun]
    show (if numBlocks B body.length < 1 + numBlocks B body.length
        then Except.ok (([] : List Nat) ++ body)
        else (Except.error Error.IncompleteMessage : Except Error (List Nat)))
      = Except.ok body
    rw [if_pos (by omega)]
    simp
  · intro hgt
    simp [segment, Nat.not_le.mpr hgt]

theorem segment_reassemble_witness :
    ((0 : Nat) < 2 ∧ (0 : Nat) < ([1, 2, 3, 4, 5] : List Nat).length) ∧
    segment true 2 [1, 2, 3, 4, 5] = .ok (segBlocks 2 [1, 2, 3, 4, 5]) ∧
    reassemble 1 (segBlocks 2 [1, 2, 3, 4, 5]) = .ok [1, 2, 3, 4, 5] ∧
    reassemble 1 ((segBlocks 2 [1, 2, 3, 4, 5]).eraseIdx 0) = .error .OrdinalGap ∧
    segment false 2 [1, 2, 3, 4, 5] = .error .SegmentationNotPermitted :=
  ⟨⟨by decide, by decide⟩,
   (segment_reassemble [1, 2, 3, 4, 5] 2 1 0 (by decide) (by decide)).1,
   (segment_reassemble [1, 2, 3, 4, 5] 2 1 0 (by decide) (by decide)).2.2.2.1,
   (segment_reassemble [1, 2, 3, 4, 5] 2 1 0 (by decide) (by decide)).2.2.2.2.1 (by decide),
   (segment_reassemble [1, 2, 3, 4, 5] 2 1 0 (by decide) (by decide)).2.2.2.2.2 (by decide)⟩

/-! ### The stream 5 and stream 6 message catalogs
(embedded from `src/semi_e5/src/messages/s5.rs` and `s6.rs`) -/

/-- The declared message types of the visible catalogs, named after their
Rust structs (the two `Abort` structs are distinguished by stream). -/
inductive MsgName where
  | s5Abort
  | alarmReportSend
  | alarmReportAcknowledge
  | enableDisableAlarmSend
  | enableDisableAllAlarmSend
  | enableDisableAlarmAcknowledge
  | listAlarmsRequest
  | listAlarmsData
  | listEnabledAlarmsRequest
  | listEnabledAlarmsData
  | s6Abort
  | eventReport
  | eventReportAcknowledge
  | eventReportRequest
  | eventReportData
deriving DecidableEq

/-- One catalog entry: the per-type constants declared by the
`message_headeronly!` / `message_data!` invocations (reply-expected flag,
stream number, function number), whether the type is header-only (no body
and hence no declared Shape), and the SINGLE-BLOCK / MULTI-BLOCK capability
stated in the type's documentation block. -/
structure MsgType where
  name : MsgName
  replyExpected : Bool
  stream : Nat
  function : Nat
  headerOnly : Bool
  multiBlock : Bool
deriving DecidableEq

/-- The catalog embedded from `s5.rs` and `s6.rs`, in source order. -/
def catalog : List MsgType :=
  [⟨.s5Abort, false, 5, 0, true, false⟩,
   ⟨.alarmReportSend, true, 5, 1, false, false⟩,
   ⟨.alarmReportAcknowledge, false, 5, 2, false, false⟩,
   ⟨.enableDisableAlarmSend, true, 5, 3, false, false⟩,
   ⟨.enableDisableAllAlarmSend, true, 5, 3, false, false⟩,
   ⟨.enableDisableAlarmAcknowledge, false, 5, 4, false, false⟩,
   ⟨.listAlarmsRequest, true, 5, 5, false, false⟩,
   ⟨.listAlarmsData, false, 5, 6, false, true⟩,
   ⟨.listEnabledAlarmsRequest, true, 5, 7, true, false⟩,
   ⟨.listEnabledAlarmsData, false, 5, 8, false, true⟩,
   ⟨.s6Abort, false, 6, 0, true, false⟩,
   ⟨.eventReport, true, 6, 11, false, true⟩,
   ⟨.eventReportAcknowledge, false, 6, 12, false, false⟩,
   ⟨.eventReportRequest, true, 6, 15, false, false⟩,
   ⟨.eventReportData, false, 6, 16, false, true⟩]

/-- Claim C3, counterexample: the catalog declares two distinct message types
sharing the (stream, function) pair (5, 3) — `EnableDisableAlarmSend`
(s5.rs lines 159–160) and `EnableDisableAllAlarmSend` (s5.rs lines 188–189)
— so the (stream, function) pair does not uniquely identify a message type,
refuting the claim as stated. -/
theorem sf_pair_not_unique :
    (⟨.enableDisableAlarmSend, true, 5, 3, false, false⟩ : MsgType) ∈ catalog ∧
    (⟨.enableDisableAllAlarmSend, true, 5, 3, false, false⟩ : MsgType) ∈ catalog ∧
    (⟨.enableDisableAlarmSend, true, 5, 3, false, false⟩ : MsgType) ≠
      ⟨.enableDisableAllAlarmSend, true, 5, 3, false, false⟩ ∧
    ¬ (∀ t1 ∈ catalog, ∀ t2 ∈ catalog, t1 ≠ t2 →
        (t1.stream, t1.function) ≠ (t2.stream, t2.function)) := by
  decide

/-- Claim C3 (amended): any two distinct declared message types have distinct
(stream, function) pairs, except for the one declared collision between
`EnableDisableAlarmSend` and `EnableDisableAllAlarmSend`, which both declare
(5, 3). -/
theorem sf_pair_unique_except_s5f3 :
    ∀ t1 ∈ catalog, ∀ t2 ∈ catalog, t1 ≠ t2 →
      t1.stream = t2.stream → t1.function = t2.function →
      (t1.name = .enableDisableAlarmSend ∧ t2.name = .enableDisableAllAlarmSend) ∨
      (t1.name = .enableDisableAllAlarmSend ∧ t2.name = .enableDisableAlarmSend) := by
  decide

theorem sf_pair_unique_except_s5f3_witness :
    ((⟨.enableDisableAlarmSend, true, 5, 3, false, false⟩ : MsgType).name =
        MsgName.enableDisableAlarmSend ∧
      (⟨.enableDisableAllAlarmSend, true, 5, 3, false, false⟩ : MsgType).name =
        MsgName.enableDisableAllAlarmSend) ∨
    ((⟨.enableDisableAlarmSend, true, 5, 3, false, false⟩ : MsgType).name =
        MsgName.enableDisableAllAlarmSend ∧
      (⟨.enableDisableAllAlarmSend, true, 5, 3, false, false⟩ : MsgType).name =
        MsgName.enableDisableAlarmSend) :=
  sf_pair_unique_except_s5f3
    ⟨.enableDisableAlarmSend, true, 5, 3, false, false⟩ (by decide)
    ⟨.enableDisableAllAlarmSend, true, 5, 3, false, false⟩ (by decide)
    (by decide) rfl rfl

/-- Claim C8: every stream appearing in the catalog declares an Abort message
type at (stream N, function 0) that is header-only — it carries no body, so
it has no declared Shape to be matched against — with reply-expected false;
and conversely every function-0 entry of the catalog is header-only and
no-reply. -/
theorem abort_per_stream :
    (∀ t ∈ catalog, ∃ a ∈ catalog, a.stream = t.stream ∧ a.function = 0 ∧
      a.headerOnly = true ∧ a.replyExpected = false) ∧
    (∀ t ∈ catalog, t.function = 0 →
      t.headerOnly = true ∧ t.replyExpected = false) := by
  decide

theorem abort_per_stream_witness :
    ∃ a ∈ catalog,
      a.stream = (⟨.alarmReportSend, true, 5, 1, false, false⟩ : MsgType).stream ∧
      a.function = 0 ∧ a.headerOnly = true ∧ a.replyExpected = false :=
  abort_per_stream.1 ⟨.alarmReportSend, true, 5, 1, false, false⟩ (by decide)

/-- Claim C10: across the stream 5 and stream 6 catalogs the declared
reply-expected flag is true exactly when the function number is odd — every
odd-function message (request or report) requires a reply and every
even-function message (acknowledge, data or abort, including function 0)
forbids one. -/
theorem reply_iff_odd_function :
    ∀ t ∈ catalog, t.replyExpected = decide (t.function % 2 = 1) := by
  decide

theorem reply_iff_odd_function_witness :
    (⟨.eventReport, true, 6, 11, false, true⟩ : MsgType).replyExpected =
      decide ((⟨.eventReport, true, 6, 11, false, true⟩ : MsgType).function % 2 = 1) :=
  reply_iff_odd_function ⟨.eventReport, true, 6, 11, false, true⟩ (by decide)

end SemiE5
